import Mathlib

/-!
Verification development for the `astrbot_plugin_neohelp` repository.

The repository contains two near-duplicate revisions of the same plugin:
a monolithic revision (`main.py`) and a refactored revision
(`collector.py` / `renderer.py` / `utils.py`).  Where the two revisions
differ, both are embedded, with a `main_` or `collector_` name part.

Python strings are modelled as Lean `String`, with the Python string
primitives (`strip`, `split`, `startswith`) implemented structurally
over the character list so that concrete witnesses evaluate; Python
dicts that can be reordered are modelled as association lists.
-/

/-- Leading and trailing whitespace removed from a character list. -/
def wsStrip (cs : List Char) : List Char :=
  ((cs.dropWhile Char.isWhitespace).reverse.dropWhile Char.isWhitespace).reverse

/-- Python `str.strip()`. -/
def pyStrip (s : String) : String := String.mk (wsStrip s.data)

/-- Split a character list at every pipe, keeping empty segments. -/
def splitPipeAux : List Char → List Char → List (List Char)
  | [], acc => [acc]
  | c :: cs, acc =>
    if c = '|' then acc :: splitPipeAux cs [] else splitPipeAux cs (acc ++ [c])

/-- Python `str.split("|")`: at least one segment, empty segments kept
(so that an explicitly empty third segment is distinguishable from an
absent one). -/
def pySplitPipe (s : String) : List String :=
  (splitPipeAux s.data []).map String.mk

/-- Python `color.startswith("#")`. -/
def startsWithHash (s : String) : Bool :=
  match s.data with
  | '#' :: _ => true
  | _ => false

/-- Python values that can appear in a loosely-typed configuration field
(`override["order"]` and friends).  Floats are out of scope. -/
inductive CVal where
  | vint (n : Int)
  | vbool (b : Bool)
  | vstr (s : String)
  | vnone
  | vlist (xs : List String)
deriving DecidableEq

/-- Is this character an ASCII digit. -/
def isDigitC (c : Char) : Bool := ('0' ≤ c && c ≤ '9')

/-- Value of an ASCII digit character. -/
def digitVal (c : Char) : Nat := c.toNat - '0'.toNat

/-- No two consecutive underscores occur in the list. -/
def noDoubleUnderscore : List Char → Bool
  | '_' :: '_' :: _ => false
  | _ :: rest => noDoubleUnderscore rest
  | [] => true

/-- Numeric value of a digit sequence, ignoring underscores. -/
def digitsToNat (cs : List Char) : Nat :=
  cs.foldl (fun a c => if isDigitC c then a * 10 + digitVal c else a) 0

/-- Parse a nonempty sequence of ASCII digits, allowing single
underscores strictly between digits (Python `int()` accepts `"1_2"`
but rejects `"_1"`, `"1_"` and `"1__2"`). -/
def parseDigits (cs : List Char) : Option Nat :=
  if cs ≠ [] ∧ cs.all (fun c => isDigitC c || c = '_') ∧
      isDigitC (cs.headD '_') ∧ isDigitC (cs.getLastD '_') ∧
      noDoubleUnderscore cs then
    some (digitsToNat cs)
  else none

/-- Model of the Python builtin `int(x)` coercion used by
`collector.py:_apply_overrides`: `none` means the coercion raises
`TypeError` or `ValueError`.  Strings are stripped, may carry one sign,
and must otherwise be ASCII digits (with optional underscores). -/
def pyInt : CVal → Option Int
  | .vint n => some n
  | .vbool b => some (if b then 1 else 0)
  | .vstr s =>
    let cs := wsStrip s.data
    match cs with
    | '-' :: rest => (parseDigits rest).map (fun n => -(n : Int))
    | '+' :: rest => (parseDigits rest).map (fun n => (n : Int))
    | _ => (parseDigits cs).map (fun n => (n : Int))
  | .vnone => none
  | .vlist _ => none

/-- Model of the `CommandInfo` dataclass (`main.py` lines 31-38,
identical in `models.py` as imported by `collector.py`).
`customPfx = none` models Python `None` (use the global wake prefix);
`customPfx = some ""` models the empty string (no prefix at all). -/
structure CommandInfo where
  name : String
  description : String := ""
  aliases : List String := []
  usage : String := ""
  admin_only : Bool := false
  customPfx : Option String := none
deriving DecidableEq

/-- Model of the `PluginInfo` dataclass (`main.py` lines 41-52).  The
`order` field is a `CVal` because the monolithic revision assigns the
raw configuration value to it unchecked; the dataclass default is the
integer 99. -/
structure PluginInfo where
  name : String
  display_name : String := ""
  description : String := ""
  commands : List CommandInfo := []
  icon_url : String := ""
  order : CVal := .vint 99
deriving DecidableEq

/-- The `__post_init__` of `PluginInfo`: an empty display name is
replaced by the plugin name. -/
def PluginInfo.postInit (p : PluginInfo) : PluginInfo :=
  if p.display_name = "" then { p with display_name := p.name } else p

/-- Constructor used whenever the source instantiates `PluginInfo(...)`:
the dataclass constructor followed by `__post_init__`. -/
def mkPluginInfo (name display_name description : String) (commands : List CommandInfo)
    (icon_url : String) (order : CVal) : PluginInfo :=
  PluginInfo.postInit ⟨name, display_name, description, commands, icon_url, order⟩

/-- Model of `main.py:_parse_pipe_command` (lines 578-592).  The third
pipe segment defaults to the EMPTY STRING when absent
(`parts[2].strip() if len(parts) > 2 else ""`), so the result's
`customPfx` is always `some _` in this revision. -/
def main_parse_pipe_command (raw : String) : Option CommandInfo :=
  if pyStrip raw = "" then none
  else
    let parts := pySplitPipe raw
    let name := pyStrip (parts.getD 0 "")
    let desc := if 1 < parts.length then pyStrip (parts.getD 1 "") else ""
    let cpfx := if 2 < parts.length then pyStrip (parts.getD 2 "") else ""
    if name = "" then none
    else some { name := name, description := desc, customPfx := some cpfx }

/-- Model of `collector.py:_parse_pipe_command` (lines 285-296).  The
third pipe segment defaults to Python `None` when absent
(`parts[2].strip() if len(parts) > 2 else None`). -/
def collector_parse_pipe_command (raw : String) : Option CommandInfo :=
  if pyStrip raw = "" then none
  else
    let parts := pySplitPipe raw
    let name := pyStrip (parts.getD 0 "")
    let desc := if 1 < parts.length then pyStrip (parts.getD 1 "") else ""
    let cpfx := if 2 < parts.length then some (pyStrip (parts.getD 2 "")) else none
    if name = "" then none
    else some { name := name, description := desc, customPfx := cpfx }

/-- Model of `main.py` lines 546-547: `if "order" in override:
p.order = override["order"]` — the raw value is assigned unchecked.
The argument is `some v` when the key `"order"` is present. -/
def main_order_update (ov : Option CVal) (old : CVal) : CVal :=
  match ov with
  | some v => v
  | none => old

/-- Model of `collector.py` lines 247-249: `with contextlib.suppress(
TypeError, ValueError): p.order = int(override["order"])` — a failed
coercion leaves the field unchanged. -/
def collector_order_update (ov : Option CVal) (old : CVal) : CVal :=
  match ov with
  | some v =>
    match pyInt v with
    | some n => .vint n
    | none => old
  | none => old

/-- Model of a `plugin_overrides` record (the dict read by
`_apply_overrides` in both revisions).  `none` models an absent key. -/
structure Override where
  plugin_name : String
  display_name : Option String := none
  description : Option String := none
  orderVal : Option CVal := none
  extra_commands : List String := []

/-- The `extra_commands` loop shared verbatim by `main.py` lines 548-553
and `collector.py` lines 250-255, parameterised by the revision's
pipe-command parser: each parsed command first removes every existing
command of the same name, then is appended. -/
def apply_extra_commands (parse : String → Option CommandInfo)
    (cmds : List CommandInfo) (raws : List String) : List CommandInfo :=
  raws.foldl
    (fun acc raw =>
      match parse raw with
      | some cmd => (acc.filter (fun c => c.name ≠ cmd.name)) ++ [cmd]
      | none => acc)
    cmds

/-- The body of the per-record override loop of
`collector.py:_apply_overrides` (lines 242-255), applied to the target
plugin: truthy `display_name`/`description` are copied, `order` is
int-coerced with errors suppressed, then extra commands are merged. -/
def collector_apply_override (p : PluginInfo) (o : Override) : PluginInfo :=
  let p := match o.display_name with
    | some s => if s ≠ "" then { p with display_name := s } else p
    | none => p
  let p := match o.description with
    | some s => if s ≠ "" then { p with description := s } else p
    | none => p
  let p := { p with order := collector_order_update o.orderVal p.order }
  { p with commands := apply_extra_commands collector_parse_pipe_command p.commands o.extra_commands }

/-- The body of the per-record override loop of
`main.py:_apply_overrides` (lines 541-553): identical except that
`order` is assigned raw and the revision's own pipe parser is used. -/
def main_apply_override (p : PluginInfo) (o : Override) : PluginInfo :=
  let p := match o.display_name with
    | some s => if s ≠ "" then { p with display_name := s } else p
    | none => p
  let p := match o.description with
    | some s => if s ≠ "" then { p with description := s } else p
    | none => p
  let p := { p with order := main_order_update o.orderVal p.order }
  { p with commands := apply_extra_commands main_parse_pipe_command p.commands o.extra_commands }

/-- Model of a `custom_categories` record as read by
`_apply_custom_categories` (both revisions). -/
structure Category where
  catName : String
  catDescription : String := ""
  orderVal : Option CVal := none
  catCommands : List String := []

/-- Command population of one custom category
(`collector.py` lines 272-283): every successfully parsed pipe command
is appended, with NO duplicate-name check. -/
def category_commands (parse : String → Option CommandInfo) (raws : List String) :
    List CommandInfo :=
  raws.foldl
    (fun acc raw =>
      match parse raw with
      | some cmd => acc ++ [cmd]
      | none => acc)
    []

/-- One custom category turned into a synthetic plugin
(`collector.py:_apply_custom_categories`, lines 263-283): named
`custom_<name>`, populated from the pipe strings; `none` when the
category resolves to zero commands (it is then dropped). -/
def collector_category_plugin (cat : Category) : Option PluginInfo :=
  if cat.catName = "" then none
  else
    let order := match cat.orderVal with
      | some v => (match pyInt v with | some n => (n : Int) | none => 99)
      | none => 99
    let cmds := category_commands collector_parse_pipe_command cat.catCommands
    if cmds ≠ [] then
      some (mkPluginInfo ("custom_" ++ cat.catName) cat.catName cat.catDescription cmds "" (.vint order))
    else none

/-- JSON-serialisable render-data values (the payloads passed to
`_cache_key`).  Objects are association lists in insertion order;
Python dicts cannot hold duplicate keys, which is tracked separately by
`jwf`. -/
inductive JValue where
  | jstr (s : String)
  | jnum (n : Int)
  | jbool (b : Bool)
  | jnull
  | jarr (xs : List JValue)
  | jobj (kvs : List (String × JValue))

/-- JSON escaping of one character (quote and backslash; other
characters pass through, matching `ensure_ascii=False`). -/
def escapeChar (c : Char) : String :=
  if c = '"' then "\\\"" else if c = '\\' then "\\\\" else String.mk [c]

/-- JSON escaping of a string body. -/
def escapeStr (s : String) : String := String.join (s.data.map escapeChar)

/-- A JSON-quoted string. -/
def jquote (s : String) : String := "\"" ++ escapeStr s ++ "\""

/-- Sort key/value pairs by key, as `json.dumps(sort_keys=True)` does.
Insertion sort is stable, like Python sorting. -/
def sortStrKvs (kvs : List (String × String)) : List (String × String) :=
  kvs.insertionSort (fun a b => a.1 ≤ b.1)

/-- Model of `json.dumps(data, sort_keys=True, ensure_ascii=False)`:
default separators are a comma-space and a colon-space, and every
object's keys are sorted before emission. -/
def serialize : JValue → String
  | .jstr s => jquote s
  | .jnum n => toString n
  | .jbool b => if b then "true" else "false"
  | .jnull => "null"
  | .jarr xs =>
    "[" ++ String.intercalate ", " (xs.attach.map (fun x => serialize x.1)) ++ "]"
  | .jobj kvs =>
    let pairs := kvs.attach.map (fun kv => (kv.1.1, serialize kv.1.2))
    "\x7b" ++
      String.intercalate ", "
        ((sortStrKvs pairs).map (fun kv => jquote kv.1 ++ ": " ++ kv.2)) ++
      "\x7d"
decreasing_by
  · have := List.sizeOf_lt_of_mem x.2
    simp at this ⊢
    omega
  · obtain ⟨⟨k, v⟩, hm⟩ := kv
    have := List.sizeOf_lt_of_mem hm
    simp at this ⊢
    omega

/-- Association lookup in an object, first matching key wins (the value
a Python dict built from these pairs would hold is the LAST one, but
`jwf` rules out duplicate keys, making the two readings agree). -/
def findVal (k : String) : List (String × JValue) → Option JValue
  | [] => none
  | (k2, v) :: rest => if k2 = k then some v else findVal k rest

/-- Well-formedness: every object in the payload has pairwise-distinct
keys, as any payload built from Python dicts does. -/
def jwf : JValue → Bool
  | .jstr _ => true
  | .jnum _ => true
  | .jbool _ => true
  | .jnull => true
  | .jarr xs => xs.attach.all (fun x => jwf x.1)
  | .jobj kvs =>
    decide ((kvs.map Prod.fst).Nodup) && kvs.attach.all (fun kv => jwf kv.1.2)
decreasing_by
  · have := List.sizeOf_lt_of_mem x.2
    simp at this ⊢
    omega
  · obtain ⟨⟨k, v⟩, hm⟩ := kv
    have := List.sizeOf_lt_of_mem hm
    simp at this ⊢
    omega

/-- Semantic identity up to mapping-key insertion order: numbers,
strings, booleans and null must be equal, arrays must match pointwise,
and objects must have the same size and, for every key of the left
object, an entry of the right object with the same key and an
equivalent value. -/
def jEquivB : JValue → JValue → Bool
  | .jstr s, .jstr t => s = t
  | .jnum n, .jnum m => n = m
  | .jbool b, .jbool c => b = c
  | .jnull, .jnull => true
  | .jarr xs, .jarr ys =>
    xs.length = ys.length &&
      (xs.zip ys).attach.all (fun p => jEquivB p.1.1 p.1.2)
  | .jobj kvs, .jobj kvs2 =>
    kvs.length = kvs2.length &&
      kvs.attach.all (fun kv =>
        match findVal kv.1.1 kvs2 with
        | some v2 => jEquivB kv.1.2 v2
        | none => false)
  | _, _ => false
termination_by d1 _ => sizeOf d1
decreasing_by
  · obtain ⟨⟨x, y⟩, hm⟩ := p
    have hm2 := List.of_mem_zip hm
    have := List.sizeOf_lt_of_mem hm2.1
    simp at this ⊢
    omega
  · obtain ⟨⟨k, v⟩, hm⟩ := kv
    have := List.sizeOf_lt_of_mem hm
    simp at this ⊢
    omega

/-- MD5 is modelled as a deterministic digest of the serialized string;
only its determinism (same input, same output) is relevant to any
claim, so the concrete mixing function is a stand-in. -/
def md5hex (s : String) : String :=
  let h := s.data.foldl (fun a c => (a * 131 + c.toNat) % 4294967296) 5381
  String.mk (Nat.toDigits 16 h)

/-- Model of `main.py:_cache_key` (lines 133-139): serialize the data
with sorted keys, hash it, and prepend the template name stripped of
its `.html` suffix. -/
def cache_key (template_name : String) (data : JValue) : String :=
  let raw := serialize data
  let h := md5hex raw
  let name := template_name.replace ".html" ""
  name ++ "_" ++ h

/-- The configuration fields read by the data builders (loose `getattr`
lookups with defaults; an empty string models an unset text field). -/
structure Config where
  title : String := ""
  subtitle : String := ""
  footer_text : String := ""
  version : String := ""
  accent_color : String := ""
  font_urls : List String := []
  font_family : String := ""
  latin_font_family : String := ""
  mono_font_family : String := ""

/-- Model of `main.py:_get_accent_color` (lines 609-613): an unset or
invalid colour (not starting with a hash, or of length other than 4 or
7) falls back to the default. -/
def get_accent_color (cfg : Config) : String :=
  let color := if cfg.accent_color = "" then "#4e96f7" else cfg.accent_color
  if (!startsWithHash color) || (color.length ≠ 4 && color.length ≠ 7) then "#4e96f7"
  else color

/-- Model of `main.py:_get_footer` (lines 602-607). -/
def get_footer (cfg : Config) : String :=
  if cfg.footer_text ≠ "" then cfg.footer_text
  else "AstrBot" ++ (if cfg.version ≠ "" then " v" ++ cfg.version else "")

/-- Model of `main.py:_get_font_config` (lines 647-659), as the
key/value pairs merged into the render data. -/
def get_font_config (cfg : Config) : List (String × JValue) :=
  [("font_urls", .jarr (((cfg.font_urls.map pyStrip).filter (fun u => u ≠ "")).map .jstr)),
   ("font_family", .jstr (pyStrip cfg.font_family)),
   ("latin_font_family", .jstr (pyStrip cfg.latin_font_family)),
   ("mono_font_family", .jstr (pyStrip cfg.mono_font_family))]

/-- Model of `main.py:_cmd_display_name` (lines 596-600): a `none`
custom prefix falls back to the global wake prefix; any explicit string
(including the empty one) replaces it. -/
def cmd_display_name (c : CommandInfo) (wakePfx : String) : String :=
  (match c.customPfx with | none => wakePfx | some p => p) ++ c.name

/-- Model of `main.py:_build_main_menu_data` (lines 663-709) as the
JSON payload handed to `_cache_key`.  The banner and header-logo data
URIs come from file reads and are taken as parameters. -/
def build_main_menu_data (cfg : Config) (plugins : List PluginInfo) (wakePfx : String)
    (expand : Bool) (bannerUri logoUri : String) : JValue :=
  let title := if cfg.title = "" then "帮助菜单" else cfg.title
  let defaultSubtitle := "发送 " ++ wakePfx ++ "help <插件名> 查看详细命令"
  let subtitle := if cfg.subtitle = "" then defaultSubtitle else cfg.subtitle
  let pluginsData : JValue :=
    if expand then
      .jarr (plugins.map (fun p => .jobj
        [("name", .jstr p.name), ("display_name", .jstr p.display_name),
         ("description", .jstr p.description), ("icon_url", .jstr p.icon_url),
         ("commands", .jarr (p.commands.map (fun c => .jobj
            [("display_name", .jstr (cmd_display_name c wakePfx)),
             ("description", .jstr c.description),
             ("admin_only", .jbool c.admin_only)])))]))
    else
      .jarr (plugins.map (fun p => .jobj
        [("name", .jstr p.name), ("display_name", .jstr p.display_name),
         ("description", .jstr p.description), ("icon_url", .jstr p.icon_url),
         ("cmd_count", .jnum p.commands.length)]))
  .jobj ([("title", .jstr title), ("subtitle", .jstr subtitle),
          ("prefix", .jstr wakePfx), ("accent_color", .jstr (get_accent_color cfg)),
          ("banner_image", .jstr bannerUri), ("header_logo", .jstr logoUri)]
         ++ get_font_config cfg
         ++ [("plugins", pluginsData), ("footer", .jstr (get_footer cfg))])

/-- A file in the disk cache directory, split as `pathlib` does into
stem and suffix. -/
structure CacheFile where
  stem : String
  sfx : String
deriving DecidableEq

/-- Model of `main.py:_cleanup_disk_cache` (lines 239-252): every
`.png` file whose stem is not a valid key is unlinked (the claim's
no-error assumption makes each unlink succeed). -/
def cleanup_disk_cache (files : List CacheFile) (validKeys : List String) : List CacheFile :=
  files.filter (fun f => !(f.sfx == ".png" && !(validKeys.contains f.stem)))

/-- The mutable cache state touched by the end of the pre-warm sweep:
the in-memory image cache, the per-key lock map (lock objects as
opaque ids), and the disk cache directory. -/
structure CacheState where
  image_cache : List (String × Nat)
  render_locks : List (String × Nat)
  disk_files : List CacheFile

/-- Model of the eviction epilogue of `main.py:_preheat_cache`
(lines 224-232), reached when the sweep finished without shutdown or
error: disk mode cleans stale `.png` files, memory mode filters the
image cache, and both modes prune the lock map to valid keys. -/
def preheat_finalize (diskCache : Bool) (st : CacheState) (validKeys : List String) :
    CacheState :=
  let st := if diskCache
    then { st with disk_files := cleanup_disk_cache st.disk_files validKeys }
    else { st with image_cache := st.image_cache.filter (fun kv => validKeys.contains kv.1) }
  { st with render_locks := st.render_locks.filter (fun kv => validKeys.contains kv.1) }

/-- Helper for `pySplitWs`: accumulate the current token while scanning.
-/
def pySplitWsAux : List Char → List Char → List (List Char)
  | [], acc => if acc = [] then [] else [acc]
  | c :: cs, acc =>
    if c.isWhitespace then
      (if acc = [] then pySplitWsAux cs [] else acc :: pySplitWsAux cs [])
    else pySplitWsAux cs (acc ++ [c])

/-- Python `str.split()` with no arguments: split on runs of
whitespace, discarding empty tokens. -/
def pySplitWs (cs : List Char) : List (List Char) := pySplitWsAux cs []

/-- The flag token scanned for by `help_command`. -/
def adminTok : List Char := "--admin".data

/-- Model of the query parsing in `main.py:help_command`
(lines 304-315): strip the query, split it into whitespace tokens,
detect the admin flag by token membership, and when present remove its
FIRST occurrence (Python `list.remove`) before re-joining the rest
with single spaces. -/
def help_parse_query (query : String) : Bool × String :=
  let q := pyStrip query
  let parts := pySplitWs q.data
  let hasAdminFlag := parts.contains adminTok
  if hasAdminFlag then
    (true, String.mk (List.intercalate [' '] (parts.erase adminTok)))
  else (false, q)

mutual
/-- Event filters attached to a handler, as walked by the extractor:
a plain command filter (name, aliases, optional owning-handler
metadata), a command-group filter (name and recursive sub-filters), or
a permission filter (`isAdmin` is true exactly for
`PermissionType.ADMIN`; other permission kinds are ignored). -/
inductive EFilter where
  | cmd (commandName : String) (cmdAlias : List String) (handlerMd : Option HMeta)
  | group (groupName : String) (subCommandFilters : List EFilter)
  | perm (isAdmin : Bool)

/-- Handler metadata (`StarHandlerMetadata`): Python object identity
(`id(handler)`) is modelled by an explicit `hid`, plus the module path,
the optional description and the ordered filter list. -/
inductive HMeta where
  | mk (hid : Nat) (modulePath : String) (hdesc : Option String) (eventFilters : List EFilter)
end

/-- The handler's identity. -/
def HMeta.hid : HMeta → Nat
  | .mk i _ _ _ => i

/-- The handler's `handler_module_path`. -/
def HMeta.modulePath : HMeta → String
  | .mk _ m _ _ => m

/-- The handler's `desc` (optional). -/
def HMeta.hdesc : HMeta → Option String
  | .mk _ _ d _ => d

/-- The handler's `event_filters`. -/
def HMeta.eventFilters : HMeta → List EFilter
  | .mk _ _ _ fs => fs

/-- Does a filter list contain an ADMIN permission filter (the loop
`isinstance(f, PermissionTypeFilter) and f.permission_type ==
PermissionType.ADMIN` in both revisions). -/
def hasAdminFilter (fs : List EFilter) : Bool :=
  fs.any (fun f => match f with | .perm a => a | _ => false)

/-- Model of `_collect_group_handler_ids` (identical in both
revisions), applied to a group's `sub_command_filters`: every command
sub-filter with handler metadata contributes that handler's identity;
group sub-filters are walked recursively. -/
def collect_group_handler_ids : List EFilter → List Nat
  | [] => []
  | .cmd _ _ (some h) :: rest => h.hid :: collect_group_handler_ids rest
  | .cmd _ _ none :: rest => collect_group_handler_ids rest
  | .group _ subs :: rest =>
    collect_group_handler_ids subs ++ collect_group_handler_ids rest
  | .perm _ :: rest => collect_group_handler_ids rest

/-- Model of `_collect_nested_group_names` (identical in both
revisions), applied to a group's `sub_command_filters`: every group
sub-filter contributes its name and is walked recursively. -/
def collect_nested_group_names : List EFilter → List String
  | [] => []
  | .group gname subs :: rest =>
    gname :: (collect_nested_group_names subs ++ collect_nested_group_names rest)
  | _ :: rest => collect_nested_group_names rest

mutual
/-- Model of `_extract_group_commands` (`collector.py` lines 174-206,
`main.py` lines 492-524): compute the group prefix, snapshot the
existing command names, then walk the sub-filters. -/
def extract_group_commands (gname : String) (gsubs : List EFilter) (parentAdmin : Bool)
    (pfx : String) (commands : List CommandInfo) : List CommandInfo :=
  let groupPfx := if pfx ≠ "" then pfx ++ gname ++ " " else gname ++ " "
  egcLoop groupPfx parentAdmin gsubs commands (commands.map CommandInfo.name)
termination_by sizeOf gsubs + 1

/-- The `for sub in group.sub_command_filters` loop of
`_extract_group_commands`.  `existing` is the local `existing_names`
set: it is extended when a command leaf is appended, but — exactly as
in the source — NOT refreshed after a recursive call on a nested
group. -/
def egcLoop (groupPfx : String) (parentAdmin : Bool) :
    List EFilter → List CommandInfo → List String → List CommandInfo
  | [], commands, _ => commands
  | .cmd cname calias hmd :: rest, commands, existing =>
    let fullName := groupPfx ++ cname
    if fullName ∈ existing then
      egcLoop groupPfx parentAdmin rest commands existing
    else
      let subDesc := match hmd with
        | some h => (HMeta.hdesc h).getD ""
        | none => ""
      let subAdmin := parentAdmin ||
        (match hmd with | some h => hasAdminFilter (HMeta.eventFilters h) | none => false)
      egcLoop groupPfx parentAdmin rest
        (commands ++ [⟨fullName, subDesc, calias, "", subAdmin, none⟩])
        (existing ++ [fullName])
  | .group gname2 gsubs2 :: rest, commands, existing =>
    let commands2 := extract_group_commands gname2 gsubs2 parentAdmin groupPfx commands
    egcLoop groupPfx parentAdmin rest commands2 existing
  | .perm _ :: rest, commands, existing =>
    egcLoop groupPfx parentAdmin rest commands existing
termination_by fs _ _ => sizeOf fs
end

/-- The last command filter in a handler's filter list wins
(`cmd_filter = f` is re-assigned on every match in `_extract_commands`).
-/
def lastCmdFilter (fs : List EFilter) : Option (String × List String) :=
  fs.foldl (fun acc f => match f with | .cmd n a _ => some (n, a) | _ => acc) none

/-- The last group filter in a handler's filter list wins. -/
def lastGroupFilter (fs : List EFilter) : Option (String × List EFilter) :=
  fs.foldl (fun acc f => match f with | .group n s => some (n, s) | _ => acc) none

/-- Model of `_extract_commands` (`collector.py` lines 146-172,
`main.py` lines 447-473): a command filter wins over a group filter; a
plain command is appended only when its name is not already present;
a group filter is flattened recursively with the handler's admin flag
as the parent default and an empty prefix. -/
def extract_commands (h : HMeta) (commands : List CommandInfo) : List CommandInfo :=
  let cmdF := lastCmdFilter (HMeta.eventFilters h)
  let grpF := lastGroupFilter (HMeta.eventFilters h)
  let isAdmin := hasAdminFilter (HMeta.eventFilters h)
  match cmdF with
  | some (cname, calias) =>
    if cname ∈ commands.map CommandInfo.name then commands
    else commands ++ [⟨cname, (HMeta.hdesc h).getD "", calias, "", isAdmin, none⟩]
  | none =>
    match grpF with
    | some (gname, gsubs) => extract_group_commands gname gsubs isAdmin "" commands
    | none => commands

/-- Generic association-list lookup (Python `dict.get`). -/
def alookup {α : Type} (k : String) : List (String × α) → Option α
  | [] => none
  | (k2, v) :: rest => if k2 = k then some v else alookup k rest

/-- Python `dict.setdefault(k, set()).update(ns)`: extend the entry for
`k`, creating it when absent. -/
def addNestedNames (mp : List (String × List String)) (k : String) (ns : List String) :
    List (String × List String) :=
  if mp.any (fun e => e.1 = k) then
    mp.map (fun e => if e.1 = k then (e.1, e.2 ++ ns) else e)
  else mp ++ [(k, ns)]

/-- One handler's contribution to pass 1 (`_scan_handler_groups`):
every group filter in its list feeds the grouped-handler ids and the
per-module nested group names. -/
def scanGroupsStep (acc : List Nat × List (String × List String)) (h : HMeta) :
    List Nat × List (String × List String) :=
  (HMeta.eventFilters h).foldl
    (fun acc2 f => match f with
      | .group _ subs =>
        (acc2.1 ++ collect_group_handler_ids subs,
         addNestedNames acc2.2 (HMeta.modulePath h) (collect_nested_group_names subs))
      | _ => acc2)
    acc

/-- Model of `collector.py:_scan_handler_groups` (lines 102-116), pass
1 over the handler registry. -/
def scan_handler_groups (registry : List HMeta) : List Nat × List (String × List String) :=
  registry.foldl scanGroupsStep ([], [])

/-- Model of `collector.py:_assign_handlers_to_plugins`
(lines 118-144), pass 2: skip handlers already counted inside a group,
skip independent handlers registered under a nested sub-group name of
their own module, resolve the owning plugin, and extract. -/
def assign_handlers_to_plugins (registry : List HMeta)
    (starModules : List (String × String))
    (groupedIds : List Nat) (nestedGroups : List (String × List String))
    (plugins : List (String × PluginInfo)) : List (String × PluginInfo) :=
  registry.foldl
    (fun ps h =>
      if (HMeta.hid h) ∈ groupedIds then ps
      else
        let nestedNames := (alookup (HMeta.modulePath h) nestedGroups).getD []
        let isNested := (HMeta.eventFilters h).any
          (fun f => match f with | .group gn _ => nestedNames.contains gn | _ => false)
        if isNested then ps
        else
          match alookup (HMeta.modulePath h) starModules with
          | none => ps
          | some pluginName =>
            if pluginName = "" then ps
            else
              match alookup pluginName ps with
              | none => ps
              | some p =>
                ps.map (fun e =>
                  if e.1 = pluginName then
                    (e.1, { p with commands := extract_commands h p.commands })
                  else e))
    plugins

/-- Model of `collector.py:_populate_commands` (lines 97-100): the two
passes chained. -/
def populate_commands (registry : List HMeta) (starModules : List (String × String))
    (plugins : List (String × PluginInfo)) : List (String × PluginInfo) :=
  let scanned := scan_handler_groups registry
  assign_handlers_to_plugins registry starModules scanned.1 scanned.2 plugins

/-- Lookup of a top-level key in a JSON object value. -/
def jLookup (k : String) : JValue → Option JValue
  | .jobj kvs => findVal k kvs
  | _ => none

/-- The spec-side reading of "space-joined": `joinSp [a, b, c]` is
`a ++ " " ++ b ++ " " ++ c`. -/
def joinSp : List String → String
  | [] => ""
  | [a] => a
  | a :: rest => a ++ " " ++ joinSp rest

/-- Modelled from the spec: the set of leaves a filter tree should
contribute, each as (full command name = space-joined ancestor group
names followed by the leaf command name, does the leaf's own handler
carry an explicit admin permission filter).  `anc` is the ancestor
group-name path. -/
def groupLeaves (anc : List String) : EFilter → List (String × Bool)
  | .cmd cname _ hmd =>
    [(joinSp (anc ++ [cname]),
      match hmd with | some h => hasAdminFilter (HMeta.eventFilters h) | none => false)]
  | .group gname subs =>
    (subs.attach.map (fun sf => groupLeaves (anc ++ [gname]) sf.1)).flatten
  | .perm _ => []
decreasing_by
  · have := List.sizeOf_lt_of_mem sf.2
    simp at this ⊢
    omega

/-- The leaves contributed by a list of sibling sub-filters. -/
def groupLeavesList (anc : List String) (fs : List EFilter) : List (String × Bool) :=
  (fs.map (groupLeaves anc)).flatten

/-- No command leaf anywhere in the filter list has a space in its
name (the hypothesis under which the stale `existing_names` snapshot
in `_extract_group_commands` cannot miss a collision). -/
def noSpaceLeaves : List EFilter → Bool
  | [] => true
  | .cmd cname _ _ :: rest => (!cname.data.contains ' ') && noSpaceLeaves rest
  | .group _ subs :: rest => noSpaceLeaves subs && noSpaceLeaves rest
  | .perm _ :: rest => noSpaceLeaves rest

/-- Program points of one `_get_cached_or_render` call (in-memory-cache
branch, `main.py` lines 144-199).  Code between two suspension points
runs atomically on the single event loop; the modelled suspension
points are the lock acquisition and the render call itself. -/
inductive PC where
  | start
  | waiting
  | critical
  | renderWait
  | done (v : Nat)
deriving DecidableEq

/-- One task executing `_get_cached_or_render` for a fixed key. -/
structure RTask where
  key : String
  pc : PC
deriving DecidableEq

/-- The shared state of the cache layer: the task pool, the in-memory
image cache (PNG bytes as `Nat`), the per-key lock map
(`some i` = held by task `i`, `none` = present and free), and the log
of render invocations (one key per started render). -/
structure Sys where
  tasks : List RTask
  cache : List (String × Nat)
  locks : List (String × Option Nat)
  renderLog : List String
deriving DecidableEq

/-- Update the value stored under an existing key. -/
def updA {α : Type} (k : String) (v : α) : List (String × α) → List (String × α)
  | [] => []
  | (k2, w) :: rest => if k2 = k then (k2, v) :: rest else (k2, w) :: updA k v rest

/-- Python `dict.setdefault(k, v)` on an association list. -/
def setdefaultA {α : Type} (k : String) (v : α) (l : List (String × α)) :
    List (String × α) :=
  match alookup k l with
  | some _ => l
  | none => l ++ [(k, v)]

/-- Python `d[k] = v` on an association list. -/
def cacheStore (k : String) (v : Nat) (l : List (String × Nat)) : List (String × Nat) :=
  match alookup k l with
  | some _ => updA k v l
  | none => l ++ [(k, v)]

/-- Small-step semantics of `_get_cached_or_render` under cooperative
scheduling, one constructor per atomic block: the lock-free fast path
(hit or miss-and-`setdefault`), lock acquisition, the double check
under the lock (hit, or miss which starts the render and is the moment
the external render function is invoked), and render completion which
stores the result, releases the lock and returns.  `rf` is the
external render function. -/
inductive Step (rf : String → Nat) : Sys → Sys → Prop where
  | fastHit (s : Sys) (i : Nat) (hi : i < s.tasks.length) (k : String) (v : Nat) :
      s.tasks.get ⟨i, hi⟩ = ⟨k, .start⟩ →
      alookup k s.cache = some v →
      Step rf s { s with tasks := s.tasks.set i ⟨k, .done v⟩ }
  | fastMiss (s : Sys) (i : Nat) (hi : i < s.tasks.length) (k : String) :
      s.tasks.get ⟨i, hi⟩ = ⟨k, .start⟩ →
      alookup k s.cache = none →
      Step rf s { s with tasks := s.tasks.set i ⟨k, .waiting⟩,
                         locks := setdefaultA k none s.locks }
  | acquire (s : Sys) (i : Nat) (hi : i < s.tasks.length) (k : String) :
      s.tasks.get ⟨i, hi⟩ = ⟨k, .waiting⟩ →
      alookup k s.locks = some none →
      Step rf s { s with tasks := s.tasks.set i ⟨k, .critical⟩,
                         locks := updA k (some i) s.locks }
  | checkHit (s : Sys) (i : Nat) (hi : i < s.tasks.length) (k : String) (v : Nat) :
      s.tasks.get ⟨i, hi⟩ = ⟨k, .critical⟩ →
      alookup k s.cache = some v →
      Step rf s { s with tasks := s.tasks.set i ⟨k, .done v⟩,
                         locks := updA k none s.locks }
  | beginRender (s : Sys) (i : Nat) (hi : i < s.tasks.length) (k : String) :
      s.tasks.get ⟨i, hi⟩ = ⟨k, .critical⟩ →
      alookup k s.cache = none →
      Step rf s { s with tasks := s.tasks.set i ⟨k, .renderWait⟩,
                         renderLog := s.renderLog ++ [k] }
  | finishRender (s : Sys) (i : Nat) (hi : i < s.tasks.length) (k : String) :
      s.tasks.get ⟨i, hi⟩ = ⟨k, .renderWait⟩ →
      Step rf s { s with tasks := s.tasks.set i ⟨k, .done (rf k)⟩,
                         cache := cacheStore k (rf k) s.cache,
                         locks := updA k none s.locks }

/-- Reachability under the cooperative scheduler. -/
def Reaches (rf : String → Nat) : Sys → Sys → Prop :=
  Relation.ReflTransGen (Step rf)

/-- An initial state for the concurrency claims: every task is at the
function entry, the per-key lock map and the render log are empty, and
key `k` is not cached. -/
def InitFor (s : Sys) (k : String) : Prop :=
  (∀ t ∈ s.tasks, t.pc = .start) ∧ alookup k s.cache = none ∧
    s.locks = [] ∧ s.renderLog = []

/-- The inductive invariant for the at-most-one-render argument, for a
fixed key `k`: lock holders are exactly the tasks inside the critical
section (between acquisition and release) for their own key; the
render count for `k` is at most one and is positive exactly when `k`
is cached or some task is mid-render for `k`; and a finished task's
key is always cached. -/
structure CInv (k : String) (s : Sys) : Prop where
  holder_mem : ∀ key i, alookup key s.locks = some (some i) →
    ∃ hi : i < s.tasks.length, (s.tasks.get ⟨i, hi⟩).key = key ∧
      ((s.tasks.get ⟨i, hi⟩).pc = .critical ∨ (s.tasks.get ⟨i, hi⟩).pc = .renderWait)
  crit_holder : ∀ i (hi : i < s.tasks.length),
    ((s.tasks.get ⟨i, hi⟩).pc = .critical ∨ (s.tasks.get ⟨i, hi⟩).pc = .renderWait) →
    alookup (s.tasks.get ⟨i, hi⟩).key s.locks = some (some i)
  count_le : s.renderLog.count k ≤ 1
  count_iff : 1 ≤ s.renderLog.count k ↔
    ((alookup k s.cache).isSome ∨ ∃ i, ∃ hi : i < s.tasks.length,
      (s.tasks.get ⟨i, hi⟩).key = k ∧ (s.tasks.get ⟨i, hi⟩).pc = .renderWait)
  done_cached : ∀ i (hi : i < s.tasks.length) (v : Nat),
    (s.tasks.get ⟨i, hi⟩).pc = .done v →
    (alookup (s.tasks.get ⟨i, hi⟩).key s.cache).isSome

/-! Shared helper lemmas. -/

/-- A key absent from every pair of an association list looks up to
nothing. -/
theorem alookup_eq_none {α : Type} (k : String) (l : List (String × α))
    (h : ∀ kv ∈ l, kv.1 ≠ k) : alookup k l = none := by
  induction l with
  | nil => rfl
  | cons kv rest ih =>
    simp only [alookup]
    rw [if_neg (h kv (by simp))]
    exact ih (fun kv2 h2 => h kv2 (by simp [h2]))

/-- A found pair is a member. -/
theorem findVal_mem {k : String} {l : List (String × JValue)} {v : JValue}
    (h : findVal k l = some v) : (k, v) ∈ l := by
  induction l with
  | nil => simp [findVal] at h
  | cons kv rest ih =>
    simp only [findVal] at h
    by_cases hk : kv.1 = k
    · rw [if_pos hk] at h
      obtain ⟨k2, v2⟩ := kv
      simp at h hk
      simp [hk, h]
    · rw [if_neg hk] at h
      exact List.mem_cons_of_mem _ (ih h)

/-- Filtering for a name after the remove-then-append merge step leaves
exactly the appended command. -/
theorem filter_remove_append (cs : List CommandInfo) (cmd : CommandInfo) :
    ((cs.filter (fun c => c.name ≠ cmd.name)) ++ [cmd]).filter
        (fun c => c.name == cmd.name) = [cmd] := by
  induction cs with
  | nil => simp
  | cons c rest ih =>
    by_cases h : c.name = cmd.name
    · simp [h, ih]
    · simp [h, ih]

/-- The `extra_commands` merge leaves exactly the parsed command under
its name, whatever was there before. -/
theorem filter_apply_extra_single (parse : String → Option CommandInfo)
    (cs : List CommandInfo) (raw : String) (cmd : CommandInfo)
    (hp : parse raw = some cmd) :
    (apply_extra_commands parse cs [raw]).filter (fun c => c.name == cmd.name) = [cmd] := by
  simp only [apply_extra_commands, List.foldl_cons, List.foldl_nil, hp]
  exact filter_remove_append cs cmd

/-! ### C4 — pipe-command prefix semantics -/

/-- C4 counterexample: the claim says an absent third pipe segment
yields the `None` sentinel, but `main.py:_parse_pipe_command` parses
`"foo|bar"` (no third segment) to a command whose `custom_prefix` is
the empty string, not `None`. -/
theorem c4_counterexample :
    main_parse_pipe_command "foo|bar" =
      some { name := "foo", description := "bar", customPfx := some "" } ∧
    some "" ≠ (none : Option String) := by
  constructor
  · decide
  · decide

/-- C4 (amended): for `collector.py:_parse_pipe_command` the claimed
three-way rule holds — an absent third pipe segment yields the `None`
sentinel, an explicitly empty one yields the empty string, and a
non-empty one yields its (stripped) literal value; in `main.py`'s
revision an absent third segment instead yields the empty string. -/
theorem c4_claim (raw : String) (c : CommandInfo)
    (h : collector_parse_pipe_command raw = some c) :
    ((pySplitPipe raw).length ≤ 2 → c.customPfx = none) ∧
    (2 < (pySplitPipe raw).length →
      c.customPfx = some (pyStrip ((pySplitPipe raw).getD 2 ""))) := by
  simp only [collector_parse_pipe_command] at h
  by_cases h0 : pyStrip raw = ""
  · rw [if_pos h0] at h
    exact absurd h (by simp)
  · rw [if_neg h0] at h
    by_cases h1 : pyStrip ((pySplitPipe raw).getD 0 "") = ""
    · rw [if_pos h1] at h
      exact absurd h (by simp)
    · rw [if_neg h1] at h
      obtain rfl : _ = c := Option.some.injEq _ _ ▸ h
      constructor
      · intro hle
        simp [Nat.not_lt_of_le hle]
      · intro hlt
        simp [hlt]

/-- C4 witness: the amended theorem applied at the two-segment string
`"a|b"`. -/
theorem c4_witness :
    collector_parse_pipe_command "a|b" =
      some { name := "a", description := "b", customPfx := none } ∧
    (pySplitPipe "a|b").length ≤ 2 ∧
    ({ name := "a", description := "b", customPfx := none } : CommandInfo).customPfx = none :=
  ⟨by decide, by decide,
    (c4_claim "a|b" { name := "a", description := "b", customPfx := none } (by decide)).1
      (by decide)⟩

/-! ### C5 — malformed override order -/

/-- C5 counterexample: `"abc"` is not coercible to an integer, yet the
order assignment of `main.py:_apply_overrides` (raw, unchecked) does
change the plugin's `order` field. -/
theorem c5_counterexample :
    pyInt (.vstr "abc") = none ∧
    main_order_update (some (.vstr "abc")) (.vint 99) ≠ .vint 99 := by
  constructor
  · decide
  · decide

/-- C5 (amended): in `collector.py:_apply_overrides` a present but
non-int-coercible `order` value leaves the plugin's `order` field
unchanged (the model is a total function, so nothing is raised); in
`main.py` the raw value is assigned unchecked, so the field changes. -/
theorem c5_claim (p : PluginInfo) (o : Override) (v : CVal)
    (h1 : o.orderVal = some v) (h2 : pyInt v = none) :
    (collector_apply_override p o).order = p.order := by
  obtain ⟨pn, dn, dsc, ov, ex⟩ := o
  simp only at h1
  subst h1
  cases dn <;> cases dsc <;>
    simp only [collector_apply_override, collector_order_update, h2] <;>
    split_ifs <;> rfl

/-- C5 witness: the amended theorem applied at the non-coercible order
value `"abc"`. -/
theorem c5_witness :
    pyInt (.vstr "abc") = none ∧
    (collector_apply_override { name := "p" }
        { plugin_name := "p", orderVal := some (.vstr "abc") }).order =
      ({ name := "p" } : PluginInfo).order :=
  ⟨by decide,
    c5_claim { name := "p" } { plugin_name := "p", orderVal := some (.vstr "abc") }
      (.vstr "abc") (by decide) (by decide)⟩

/-! ### C6 — pre-warm sweep eviction -/

/-- C6: after the eviction epilogue of a completed pre-warm sweep, a
key outside the sweep's valid set has no `.png` file left in disk mode,
no entry left in the in-memory cache in memory mode, and in either mode
the per-key lock map only carries keys from the valid set. -/
theorem c6_claim (diskCache : Bool) (st : CacheState) (validKeys : List String)
    (k : String) (hk : k ∉ validKeys) :
    (∀ f ∈ (preheat_finalize true st validKeys).disk_files, ¬(f.stem = k ∧ f.sfx = ".png")) ∧
    alookup k (preheat_finalize false st validKeys).image_cache = none ∧
    (∀ kv ∈ (preheat_finalize diskCache st validKeys).render_locks, kv.1 ∈ validKeys) := by
  refine ⟨?_, ?_, ?_⟩
  · intro f hf hcontra
    obtain ⟨hstem, hsfx⟩ := hcontra
    have hf2 : f ∈ List.filter
        (fun f => !(f.sfx == ".png" && !validKeys.contains f.stem)) st.disk_files := by
      simpa [preheat_finalize, cleanup_disk_cache] using hf
    rw [List.mem_filter] at hf2
    have hcond := hf2.2
    rw [hstem, hsfx] at hcond
    simp [hk] at hcond
  · apply alookup_eq_none
    intro kv hkv
    have hkv2 : kv ∈ List.filter (fun kv => validKeys.contains kv.1) st.image_cache := by
      simpa [preheat_finalize] using hkv
    rw [List.mem_filter] at hkv2
    intro hkk
    rw [hkk] at hkv2
    simp [hk] at hkv2
  · intro kv hkv
    simp only [preheat_finalize] at hkv
    split at hkv <;>
    · simp only [List.mem_filter] at hkv
      simpa using hkv.2

/-- C6 witness: the theorem applied at a concrete stale key. -/
theorem c6_witness :
    "stale" ∉ (["fresh"] : List String) ∧
    (∀ kv ∈ (preheat_finalize true
        ⟨[("stale", 1)], [("stale", 2), ("fresh", 3)], [⟨"stale", ".png"⟩]⟩
        ["fresh"]).render_locks, kv.1 ∈ (["fresh"] : List String)) :=
  ⟨by decide,
    (c6_claim true ⟨[("stale", 1)], [("stale", 2), ("fresh", 3)], [⟨"stale", ".png"⟩]⟩
      ["fresh"] "stale" (by decide)).2.2⟩

/-! ### C8 — override precedence -/

/-- The override record's display/description updates never touch the
command list (`collector.py` revision). -/
theorem collector_apply_override_commands (p : PluginInfo) (o : Override) :
    (collector_apply_override p o).commands =
      apply_extra_commands collector_parse_pipe_command p.commands o.extra_commands := by
  obtain ⟨pn, dn, dsc, ov, ex⟩ := o
  cases dn <;> cases dsc <;>
    first
      | rfl
      | (simp only [collector_apply_override]; split_ifs <;> rfl)

/-- The override record's display/description updates never touch the
command list (`main.py` revision). -/
theorem main_apply_override_commands (p : PluginInfo) (o : Override) :
    (main_apply_override p o).commands =
      apply_extra_commands main_parse_pipe_command p.commands o.extra_commands := by
  obtain ⟨pn, dn, dsc, ov, ex⟩ := o
  cases dn <;> cases dsc <;>
    first
      | rfl
      | (simp only [main_apply_override]; split_ifs <;> rfl)

/-- C8: if discovery populated a plugin with a command `"foo"`
(description `"A"`), an override carrying `extra_commands = ["foo|B"]`
leaves exactly one command named `"foo"` in the plugin, with
description `"B"`, in both revisions. -/
theorem c8_claim (p : PluginInfo) (o : Override)
    (_hd : ∃ c ∈ p.commands, c.name = "foo" ∧ c.description = "A")
    (he : o.extra_commands = ["foo|B"]) :
    ((collector_apply_override p o).commands.filter (fun c => c.name == "foo")).map
        (fun c => c.description) = ["B"] ∧
    ((main_apply_override p o).commands.filter (fun c => c.name == "foo")).map
        (fun c => c.description) = ["B"] := by
  constructor
  · rw [collector_apply_override_commands, he]
    rw [filter_apply_extra_single collector_parse_pipe_command p.commands "foo|B"
      { name := "foo", description := "B", customPfx := none } (by decide)]
    rfl
  · rw [main_apply_override_commands, he]
    rw [filter_apply_extra_single main_parse_pipe_command p.commands "foo|B"
      { name := "foo", description := "B", customPfx := some "" } (by decide)]
    rfl

/-- C8 witness: the theorem applied to a plugin discovered with
`foo`/`"A"` and the override `extra_commands = ["foo|B"]`. -/
theorem c8_witness :
    (∃ c ∈ ({ name := "p", commands := [{ name := "foo", description := "A" }] } :
        PluginInfo).commands, c.name = "foo" ∧ c.description = "A") ∧
    ((collector_apply_override
        { name := "p", commands := [{ name := "foo", description := "A" }] }
        { plugin_name := "p", extra_commands := ["foo|B"] }).commands.filter
          (fun c => c.name == "foo")).map (fun c => c.description) = ["B"] :=
  ⟨⟨{ name := "foo", description := "A" }, by decide, by decide, by decide⟩,
    (c8_claim { name := "p", commands := [{ name := "foo", description := "A" }] }
      { plugin_name := "p", extra_commands := ["foo|B"] }
      ⟨{ name := "foo", description := "A" }, by decide, by decide, by decide⟩
      rfl).1⟩

/-! ### C9 — accent colour passthrough -/

/-- C9 counterexample: the configured accent colour `"red"` is NOT
passed through to the render data unchanged — `_get_accent_color`
replaces it with the default `"#4e96f7"`. -/
theorem c9_counterexample :
    jLookup "accent_color"
        (build_main_menu_data { accent_color := "red" } [] "/" false "" "") =
      some (.jstr "#4e96f7") ∧
    JValue.jstr "#4e96f7" ≠ .jstr "red" := by
  constructor
  · rfl
  · simp

/-- C9 (amended): a configured accent colour is placed into the main
menu render data unchanged exactly when it passes `_get_accent_color`'s
validity test (starts with `#` and has length 4 or 7); any other
configured value is replaced by the default `"#4e96f7"`. -/
theorem c9_claim (cfg : Config) (plugins : List PluginInfo) (wakePfx : String)
    (expand : Bool) (bannerUri logoUri : String)
    (h1 : startsWithHash cfg.accent_color = true)
    (h2 : cfg.accent_color.length = 4 ∨ cfg.accent_color.length = 7) :
    jLookup "accent_color"
        (build_main_menu_data cfg plugins wakePfx expand bannerUri logoUri) =
      some (.jstr cfg.accent_color) := by
  have hne : cfg.accent_color ≠ "" := by
    intro h
    rw [h] at h1
    simp [startsWithHash] at h1
  have hacc : get_accent_color cfg = cfg.accent_color := by
    simp only [get_accent_color, if_neg hne]
    rcases h2 with h2 | h2 <;> simp [h1, h2]
  simp only [build_main_menu_data, jLookup, List.cons_append]
  simp [findVal, hacc]

/-- C9 witness: the amended theorem applied at the valid colour
`"#abc"`. -/
theorem c9_witness :
    startsWithHash "#abc" = true ∧ (("#abc" : String).length = 4 ∨ ("#abc" : String).length = 7) ∧
    jLookup "accent_color"
        (build_main_menu_data { accent_color := "#abc" } [] "/" false "" "") =
      some (.jstr "#abc") :=
  ⟨by decide, Or.inl (by decide),
    c9_claim { accent_color := "#abc" } [] "/" false "" "" (by decide) (Or.inl (by decide))⟩

/-! ### C10 — admin-flag query parsing -/

/-- Every token produced by the whitespace splitter is nonempty and
whitespace-free. -/
theorem pySplitWsAux_tok (cs : List Char) : ∀ (acc : List Char),
    (∀ c ∈ acc, c.isWhitespace = false) →
    ∀ t ∈ pySplitWsAux cs acc, t ≠ [] ∧ ∀ c ∈ t, c.isWhitespace = false := by
  induction cs with
  | nil =>
    intro acc hacc t ht
    simp only [pySplitWsAux] at ht
    split at ht
    · simp at ht
    · next hne =>
      simp only [List.mem_singleton] at ht
      subst ht
      exact ⟨hne, hacc⟩
  | cons c cs ih =>
    intro acc hacc t ht
    simp only [pySplitWsAux] at ht
    by_cases hws : c.isWhitespace = true
    · rw [if_pos hws] at ht
      by_cases hae : acc = []
      · rw [if_pos hae] at ht
        exact ih [] (by simp) t ht
      · rw [if_neg hae] at ht
        rcases List.mem_cons.mp ht with rfl | ht2
        · exact ⟨hae, hacc⟩
        · exact ih [] (by simp) t ht2
    · rw [if_neg hws] at ht
      refine ih (acc ++ [c]) ?_ t ht
      intro d hd
      rcases List.mem_append.mp hd with hd | hd
      · exact hacc d hd
      · simp only [List.mem_singleton] at hd
        subst hd
        simpa using hws

/-- Scanning past a whitespace-free run just extends the accumulator.
-/
theorem pySplitWsAux_append_run (t : List Char) : ∀ (acc rest : List Char),
    (∀ c ∈ t, c.isWhitespace = false) →
    pySplitWsAux (t ++ rest) acc = pySplitWsAux rest (acc ++ t) := by
  induction t with
  | nil => intro acc rest _; simp
  | cons c t ih =>
    intro acc rest h
    have hc : c.isWhitespace = false := h c (by simp)
    simp only [List.cons_append, pySplitWsAux]
    rw [if_neg (by simp [hc])]
    simp only [List.append_eq]
    rw [ih (acc ++ [c]) rest (fun d hd => h d (by simp [hd]))]
    simp

/-- A single nonempty whitespace-free token splits to itself. -/
theorem pySplitWs_single (t : List Char) (hne : t ≠ [])
    (hnw : ∀ c ∈ t, c.isWhitespace = false) : pySplitWs t = [t] := by
  unfold pySplitWs
  have h := pySplitWsAux_append_run t [] [] hnw
  simp only [List.append_nil, List.nil_append] at h
  rw [h]
  simp [pySplitWsAux, hne]

/-- Splitting the space-joined concatenation of nonempty
whitespace-free tokens recovers the tokens. -/
theorem pySplitWs_join (ts : List (List Char))
    (h : ∀ t ∈ ts, t ≠ [] ∧ ∀ c ∈ t, c.isWhitespace = false) :
    pySplitWs (List.intercalate [' '] ts) = ts := by
  induction ts with
  | nil => rfl
  | cons t ts ih =>
    cases ts with
    | nil =>
      have h1 := h t (by simp)
      have hint : List.intercalate [' '] [t] = t := by simp [List.intercalate]
      rw [hint]
      exact pySplitWs_single t h1.1 h1.2
    | cons t2 ts2 =>
      have h1 := h t (by simp)
      have hint : List.intercalate [' '] (t :: t2 :: ts2)
          = t ++ ' ' :: List.intercalate [' '] (t2 :: ts2) := by
        simp [List.intercalate, List.intersperse_cons_cons]
      rw [hint]
      unfold pySplitWs
      rw [pySplitWsAux_append_run t [] (' ' :: List.intercalate [' '] (t2 :: ts2)) h1.2]
      simp only [List.nil_append, pySplitWsAux]
      rw [if_pos (by decide)]
      rw [if_neg h1.1]
      congr 1
      exact ih (fun u hu => h u (by simp [hu]))

/-- C10: the admin-visibility flag is recognized only as a whole
whitespace-delimited token (the parsed flag is true exactly when
`"--admin"` is one of the query's whitespace tokens), and when the
token occurs at least twice only its first occurrence is removed: the
rebuilt query's tokens are the original tokens with one `"--admin"`
erased, so the remaining occurrences stay in the plugin-name query. -/
theorem c10_claim (query : String) :
    ((help_parse_query query).1 = true ↔ adminTok ∈ pySplitWs (pyStrip query).data) ∧
    (2 ≤ (pySplitWs (pyStrip query).data).count adminTok →
      pySplitWs (help_parse_query query).2.data
          = (pySplitWs (pyStrip query).data).erase adminTok ∧
      (pySplitWs (help_parse_query query).2.data).count adminTok
          = (pySplitWs (pyStrip query).data).count adminTok - 1 ∧
      adminTok ∈ pySplitWs (help_parse_query query).2.data) := by
  constructor
  · simp only [help_parse_query]
    by_cases hmem : adminTok ∈ pySplitWs (pyStrip query).data
    · rw [if_pos (by simpa using hmem)]
      simpa using hmem
    · rw [if_neg (by simpa using hmem)]
      simpa using hmem
  · intro hcount
    have hmem : adminTok ∈ pySplitWs (pyStrip query).data :=
      List.count_pos_iff.mp (by omega)
    have hq : (help_parse_query query).2 =
        String.mk (List.intercalate [' ']
          ((pySplitWs (pyStrip query).data).erase adminTok)) := by
      simp only [help_parse_query]
      rw [if_pos (by simpa using hmem)]
    have htok : ∀ t ∈ (pySplitWs (pyStrip query).data).erase adminTok,
        t ≠ [] ∧ ∀ c ∈ t, c.isWhitespace = false := by
      intro t ht
      exact pySplitWsAux_tok (pyStrip query).data [] (by simp) t
        ((List.erase_sublist _ _).subset ht)
    have hsplit : pySplitWs (help_parse_query query).2.data
        = (pySplitWs (pyStrip query).data).erase adminTok := by
      rw [hq]
      exact pySplitWs_join _ htok
    refine ⟨hsplit, ?_, ?_⟩
    · rw [hsplit]
      exact List.count_erase_self adminTok _
    · rw [hsplit]
      apply List.count_pos_iff.mp
      rw [List.count_erase_self adminTok]
      omega

/-- C10 witness: the theorem applied to a query holding the flag token
twice. -/
theorem c10_witness :
    2 ≤ (pySplitWs (pyStrip "a --admin b --admin").data).count adminTok ∧
    adminTok ∈ pySplitWs (help_parse_query "a --admin b --admin").2.data :=
  ⟨by decide, ((c10_claim "a --admin b --admin").2 (by decide)).2.2⟩

/-! ### C3 — cache-key insertion-order invariance -/

/-- Characterization of array equivalence. -/
theorem jEquivB_arr_iff (xs ys : List JValue) :
    jEquivB (.jarr xs) (.jarr ys) = true ↔
      xs.length = ys.length ∧ ∀ p ∈ xs.zip ys, jEquivB p.1 p.2 = true := by
  rw [jEquivB, Bool.and_eq_true]
  simp only [decide_eq_true_eq, List.all_eq_true, List.mem_attach, true_implies, Subtype.forall]

/-- Characterization of object equivalence. -/
theorem jEquivB_obj_iff (kvs kvs2 : List (String × JValue)) :
    jEquivB (.jobj kvs) (.jobj kvs2) = true ↔
      kvs.length = kvs2.length ∧
      ∀ kv ∈ kvs, ∃ v2, findVal kv.1 kvs2 = some v2 ∧ jEquivB kv.2 v2 = true := by
  rw [jEquivB, Bool.and_eq_true]
  simp only [decide_eq_true_eq, List.all_eq_true, List.mem_attach, true_implies, Subtype.forall]
  constructor
  · rintro ⟨hlen, hall⟩
    refine ⟨hlen, ?_⟩
    intro kv hkv
    have h := hall kv hkv
    revert h
    cases hfv : findVal kv.1 kvs2 with
    | none => intro h; exact absurd h (by simp)
    | some v2 => intro h; exact ⟨v2, rfl, h⟩
  · rintro ⟨hlen, hall⟩
    refine ⟨hlen, ?_⟩
    intro kv hkv
    obtain ⟨v2, hfv, he⟩ := hall kv hkv
    rw [hfv]
    exact he

/-- Characterization of array well-formedness. -/
theorem jwf_arr_iff (xs : List JValue) :
    jwf (.jarr xs) = true ↔ ∀ x ∈ xs, jwf x = true := by
  rw [jwf]
  simp only [List.all_eq_true, List.mem_attach, true_implies, Subtype.forall]

/-- Characterization of object well-formedness. -/
theorem jwf_obj_iff (kvs : List (String × JValue)) :
    jwf (.jobj kvs) = true ↔
      (kvs.map Prod.fst).Nodup ∧ ∀ kv ∈ kvs, jwf kv.2 = true := by
  rw [jwf, Bool.and_eq_true]
  simp only [decide_eq_true_eq, List.all_eq_true, List.mem_attach, true_implies, Subtype.forall]

/-- Unfolding of `serialize` on arrays. -/
theorem serialize_arr (xs : List JValue) :
    serialize (.jarr xs) =
      "[" ++ String.intercalate ", " (xs.map serialize) ++ "]" := by
  rw [serialize]
  rw [List.attach_map_val xs serialize]

/-- Unfolding of `serialize` on objects. -/
theorem serialize_obj (kvs : List (String × JValue)) :
    serialize (.jobj kvs) = "\x7b" ++
      String.intercalate ", "
        ((sortStrKvs (kvs.map (fun kv => (kv.1, serialize kv.2)))).map
          (fun kv => jquote kv.1 ++ ": " ++ kv.2)) ++ "\x7d" := by
  rw [serialize]
  rw [List.attach_map_val kvs (fun kv => (kv.1, serialize kv.2))]

/-- Two sorted association lists that are permutations of each other
and have duplicate-free keys are equal. -/
theorem sorted_perm_eq_of_nodupkeys :
    ∀ (l1 l2 : List (String × String)), l1.Perm l2 →
      l1.Sorted (fun a b => a.1 ≤ b.1) → l2.Sorted (fun a b => a.1 ≤ b.1) →
      (l1.map Prod.fst).Nodup → l1 = l2 := by
  intro l1
  induction l1 with
  | nil =>
    intro l2 hp _ _ _
    exact hp.nil_eq
  | cons a t1 ih =>
    intro l2 hp hs1 hs2 hnd
    cases l2 with
    | nil =>
      have := hp.length_eq
      simp at this
    | cons b t2 =>
      have hab : a = b := by
        have ha2 : a ∈ b :: t2 := hp.subset (by simp)
        have hb1 : b ∈ a :: t1 := hp.symm.subset (by simp)
        rcases List.mem_cons.mp ha2 with h | ha2
        · exact h
        rcases List.mem_cons.mp hb1 with h | hb1
        · exact h.symm
        have h1 : a.1 ≤ b.1 := (List.sorted_cons.mp hs1).1 b hb1
        have h2 : b.1 ≤ a.1 := (List.sorted_cons.mp hs2).1 a ha2
        have hkey : a.1 = b.1 := le_antisymm h1 h2
        exfalso
        have hmem : b.1 ∈ t1.map Prod.fst := List.mem_map_of_mem Prod.fst hb1
        rw [← hkey] at hmem
        rw [List.map_cons, List.nodup_cons] at hnd
        exact hnd.1 hmem
      subst hab
      have ht : t1.Perm t2 := hp.cons_inv
      have htl := ih t2 ht (List.sorted_cons.mp hs1).2 (List.sorted_cons.mp hs2).2
        (by rw [List.map_cons, List.nodup_cons] at hnd; exact hnd.2)
      rw [htl]

/-- Pointwise-equal images over zipped lists of equal length give equal
maps. -/
theorem map_eq_of_zip (f : JValue → String) : ∀ (xs ys : List JValue),
    xs.length = ys.length → (∀ p ∈ xs.zip ys, f p.1 = f p.2) →
    xs.map f = ys.map f := by
  intro xs
  induction xs with
  | nil =>
    intro ys h _
    cases ys with
    | nil => rfl
    | cons y ys => simp at h
  | cons x xs ih =>
    intro ys h hall
    cases ys with
    | nil => simp at h
    | cons y ys =>
      simp only [List.length_cons, Nat.add_right_cancel_iff] at h
      simp only [List.map_cons, List.cons.injEq]
      constructor
      · exact hall (x, y) (by simp [List.zip_cons_cons])
      · exact ih ys h (fun p hp => hall p (by simp [List.zip_cons_cons, hp]))

/-- Equivalent well-formed payloads serialize identically (induction on
size). -/
theorem serialize_eq_aux : ∀ (n : Nat) (d1 d2 : JValue), sizeOf d1 ≤ n →
    jwf d1 = true → jEquivB d1 d2 = true → serialize d1 = serialize d2 := by
  intro n
  induction n with
  | zero =>
    intro d1 d2 hs _ _
    exfalso
    cases d1 <;> simp at hs
  | succ n ih =>
    intro d1 d2 hs hw he
    cases d1 with
    | jstr s =>
      cases d2 <;> simp only [jEquivB, decide_eq_true_eq, Bool.false_eq_true] at he
      rw [he]
    | jnum m =>
      cases d2 <;> simp only [jEquivB, decide_eq_true_eq, Bool.false_eq_true] at he
      rw [he]
    | jbool b =>
      cases d2 <;> simp only [jEquivB, decide_eq_true_eq, Bool.false_eq_true] at he
      rw [he]
    | jnull =>
      cases d2 <;> simp only [jEquivB, decide_eq_true_eq, Bool.false_eq_true] at he
      rfl
    | jarr xs =>
      cases d2 with
      | jarr ys =>
        rw [jEquivB_arr_iff] at he
        obtain ⟨hlen, hall⟩ := he
        rw [jwf_arr_iff] at hw
        rw [serialize_arr, serialize_arr]
        have hmap : xs.map serialize = ys.map serialize := by
          apply map_eq_of_zip serialize xs ys hlen
          intro p hp
          have hx : p.1 ∈ xs := (List.of_mem_zip hp).1
          have hsx : sizeOf p.1 ≤ n := by
            have h1 := List.sizeOf_lt_of_mem hx
            simp only [JValue.jarr.sizeOf_spec] at hs
            omega
          exact ih p.1 p.2 hsx (hw p.1 hx) (hall p hp)
        rw [hmap]
      | jstr t => simp only [jEquivB, Bool.false_eq_true] at he
      | jnum m => simp only [jEquivB, Bool.false_eq_true] at he
      | jbool b => simp only [jEquivB, Bool.false_eq_true] at he
      | jnull => simp only [jEquivB, Bool.false_eq_true] at he
      | jobj kvs2 => simp only [jEquivB, Bool.false_eq_true] at he
    | jobj kvs =>
      cases d2 with
      | jobj kvs2 =>
        rw [jEquivB_obj_iff] at he
        obtain ⟨hlen, hall⟩ := he
        rw [jwf_obj_iff] at hw
        obtain ⟨hnd, hwv⟩ := hw
        rw [serialize_obj, serialize_obj]
        suffices hss : sortStrKvs (kvs.map (fun kv => (kv.1, serialize kv.2))) =
            sortStrKvs (kvs2.map (fun kv => (kv.1, serialize kv.2))) by
          rw [hss]
        have hsub : (kvs.map (fun kv => (kv.1, serialize kv.2))) ⊆
            (kvs2.map (fun kv => (kv.1, serialize kv.2))) := by
          intro x hx
          rw [List.mem_map] at hx
          obtain ⟨⟨k1, v1⟩, hkv, rfl⟩ := hx
          obtain ⟨v2, hfv, hev⟩ := hall (k1, v1) hkv
          have hmem2 : (k1, v2) ∈ kvs2 := findVal_mem hfv
          have hsv : sizeOf v1 ≤ n := by
            have h1 := List.sizeOf_lt_of_mem hkv
            simp only [JValue.jobj.sizeOf_spec, Prod.mk.sizeOf_spec] at hs h1
            omega
          have hser : serialize v1 = serialize v2 :=
            ih v1 v2 hsv (hwv (k1, v1) hkv) hev
          rw [List.mem_map]
          exact ⟨(k1, v2), hmem2, by simp [hser]⟩
        have hmapfst : (kvs.map (fun kv => (kv.1, serialize kv.2))).map Prod.fst =
            kvs.map Prod.fst := by
          simp
        have hmapfst2 : (kvs2.map (fun kv => (kv.1, serialize kv.2))).map Prod.fst =
            kvs2.map Prod.fst := by
          simp
        have hndA : ((kvs.map (fun kv => (kv.1, serialize kv.2))).map Prod.fst).Nodup := by
          rw [hmapfst]
          exact hnd
        have hAnd : (kvs.map (fun kv => (kv.1, serialize kv.2))).Nodup :=
          List.Nodup.of_map Prod.fst hndA
        have hperm : (kvs.map (fun kv => (kv.1, serialize kv.2))).Perm
            (kvs2.map (fun kv => (kv.1, serialize kv.2))) := by
          apply (List.subperm_of_subset hAnd hsub).perm_of_length_le
          simp [hlen]
        haveI hto : IsTotal (String × String) (fun a b => a.1 ≤ b.1) :=
          ⟨fun a b => le_total a.1 b.1⟩
        haveI htr : IsTrans (String × String) (fun a b => a.1 ≤ b.1) :=
          ⟨fun a b c hab hbc => le_trans hab hbc⟩
        apply sorted_perm_eq_of_nodupkeys
        · exact ((List.perm_insertionSort _ _).trans hperm).trans
            (List.perm_insertionSort _ _).symm
        · exact List.sorted_insertionSort _ _
        · exact List.sorted_insertionSort _ _
        · have hp2 : ((sortStrKvs (kvs.map (fun kv => (kv.1, serialize kv.2)))).map
              Prod.fst).Perm ((kvs.map (fun kv => (kv.1, serialize kv.2))).map Prod.fst) :=
            (List.perm_insertionSort _ _).map Prod.fst
          exact hp2.nodup_iff.mpr hndA
      | jstr t => simp only [jEquivB, Bool.false_eq_true] at he
      | jnum m => simp only [jEquivB, Bool.false_eq_true] at he
      | jbool b => simp only [jEquivB, Bool.false_eq_true] at he
      | jnull => simp only [jEquivB, Bool.false_eq_true] at he
      | jarr ys => simp only [jEquivB, Bool.false_eq_true] at he

/-- Equivalent well-formed payloads serialize identically. -/
theorem serialize_eq_of_jEquivB (d1 d2 : JValue) (hw : jwf d1 = true)
    (he : jEquivB d1 d2 = true) : serialize d1 = serialize d2 :=
  serialize_eq_aux (sizeOf d1) d1 d2 le_rfl hw he

/-- C3: two render-data payloads that are semantically identical up to
mapping key insertion order (and whose objects have duplicate-free
keys, as Python dicts always do) derive the same cache key for every
template name. -/
theorem c3_claim (tname : String) (d1 d2 : JValue) (hw : jwf d1 = true)
    (he : jEquivB d1 d2 = true) : cache_key tname d1 = cache_key tname d2 := by
  simp only [cache_key]
  rw [serialize_eq_of_jEquivB d1 d2 hw he]

/-- C3 witness: the theorem applied to a two-key payload and its
reordering. -/
theorem c3_witness :
    jwf (.jobj [("a", .jnum 1), ("b", .jstr "x")]) = true ∧
    jEquivB (.jobj [("a", .jnum 1), ("b", .jstr "x")])
      (.jobj [("b", .jstr "x"), ("a", .jnum 1)]) = true ∧
    cache_key "main_menu.html" (.jobj [("a", .jnum 1), ("b", .jstr "x")]) =
      cache_key "main_menu.html" (.jobj [("b", .jstr "x"), ("a", .jnum 1)]) :=
  ⟨by simp [jwf], by simp [jEquivB, findVal],
    c3_claim "main_menu.html" _ _ (by simp [jwf]) (by simp [jEquivB, findVal])⟩

/-! ### C2 — recursive group flattening -/

/-- Space-joining a nonempty list after a head element. -/
theorem joinSp_cons (a : String) (l : List String) (h : l ≠ []) :
    joinSp (a :: l) = a ++ " " ++ joinSp l := by
  cases l with
  | nil => exact absurd rfl h
  | cons b t => rfl

/-- Extending the ancestor path by a head group name prefixes every
leaf's full name by that name and a space. -/
theorem groupLeaves_cons (a : String) : ∀ (n : Nat) (f : EFilter) (anc : List String),
    sizeOf f ≤ n →
    groupLeaves (a :: anc) f = (groupLeaves anc f).map (fun p => (a ++ " " ++ p.1, p.2)) := by
  intro n
  induction n with
  | zero =>
    intro f anc h
    exfalso
    cases f <;> simp at h
  | succ n ih =>
    intro f anc hle
    cases f with
    | cmd cname calias hmd =>
      cases hmd <;>
      · simp only [groupLeaves, List.map_cons, List.map_nil]
        rw [List.cons_append, joinSp_cons a (anc ++ [cname]) (by simp)]
    | group gname subs =>
      simp only [groupLeaves]
      rw [List.map_flatten, List.map_map]
      congr 1
      apply List.map_congr_left
      intro sf _
      have hsz : sizeOf sf.1 ≤ n := by
        have h1 := List.sizeOf_lt_of_mem sf.2
        simp only [EFilter.group.sizeOf_spec] at hle
        omega
      simp only [Function.comp_apply]
      exact ih sf.1 (anc ++ [gname]) hsz
    | perm b =>
      simp only [groupLeaves, List.map_nil]

/-- A childless command filter contributes its own name as the leaf. -/
theorem groupLeaves_nil_cmd (cname : String) (calias : List String) (hmd : Option HMeta) :
    groupLeaves [] (.cmd cname calias hmd) =
      [(cname, match hmd with
        | some h => hasAdminFilter (HMeta.eventFilters h)
        | none => false)] := by
  cases hmd <;> simp [groupLeaves, joinSp]

/-- A group filter's leaves are its sub-filters' leaves with the group
name (and a space) prefixed. -/
theorem groupLeaves_nil_group (g : String) (subs : List EFilter) :
    groupLeaves [] (.group g subs) =
      (groupLeavesList [] subs).map (fun p => (g ++ " " ++ p.1, p.2)) := by
  simp only [groupLeaves, List.nil_append]
  rw [List.attach_map_val subs (groupLeaves [g])]
  have h : subs.map (groupLeaves [g]) =
      subs.map (fun sf => (groupLeaves [] sf).map (fun p => (g ++ " " ++ p.1, p.2))) := by
    apply List.map_congr_left
    intro sf _
    exact groupLeaves_cons g (sizeOf sf) sf [] le_rfl
  rw [h, groupLeavesList]
  rw [List.map_flatten, List.map_map]
  rfl

/-- The leaves of a sibling list split along the head. -/
theorem groupLeavesList_cons (f : EFilter) (rest : List EFilter) :
    groupLeavesList [] (f :: rest) = groupLeaves [] f ++ groupLeavesList [] rest := by
  simp [groupLeavesList]

/-- Unfolding of the extraction loop on an empty sibling list. -/
theorem egcLoop_nil (gp : String) (pa : Bool) (cmds : List CommandInfo) (ex : List String) :
    egcLoop gp pa [] cmds ex = cmds := by
  simp only [egcLoop]

/-- Unfolding of the extraction loop on a command sub-filter. -/
theorem egcLoop_cmd (gp : String) (pa : Bool) (cname : String) (calias : List String)
    (hmd : Option HMeta) (rest : List EFilter) (cmds : List CommandInfo) (ex : List String) :
    egcLoop gp pa (.cmd cname calias hmd :: rest) cmds ex =
      if gp ++ cname ∈ ex then egcLoop gp pa rest cmds ex
      else egcLoop gp pa rest
        (cmds ++ [⟨gp ++ cname,
          (match hmd with | some h => (HMeta.hdesc h).getD "" | none => ""), calias, "",
          pa || (match hmd with
                 | some h => hasAdminFilter (HMeta.eventFilters h)
                 | none => false),
          none⟩])
        (ex ++ [gp ++ cname]) := by
  cases hmd <;> simp only [egcLoop]

/-- Unfolding of the extraction loop on a nested group sub-filter. -/
theorem egcLoop_group (gp : String) (pa : Bool) (g : String) (gsubs : List EFilter)
    (rest : List EFilter) (cmds : List CommandInfo) (ex : List String) :
    egcLoop gp pa (.group g gsubs :: rest) cmds ex =
      egcLoop gp pa rest (extract_group_commands g gsubs pa gp cmds) ex := by
  simp only [egcLoop]

/-- Unfolding of the extraction loop on a permission sub-filter. -/
theorem egcLoop_perm (gp : String) (pa : Bool) (b : Bool) (rest : List EFilter)
    (cmds : List CommandInfo) (ex : List String) :
    egcLoop gp pa (.perm b :: rest) cmds ex = egcLoop gp pa rest cmds ex := by
  simp only [egcLoop]

/-- The group-prefix computation always amounts to appending the group
name and a space. -/
theorem extract_group_commands_eq (g : String) (gsubs : List EFilter) (pa : Bool)
    (pfx : String) (cmds : List CommandInfo) :
    extract_group_commands g gsubs pa pfx cmds =
      egcLoop (pfx ++ (g ++ " ")) pa gsubs cmds (cmds.map CommandInfo.name) := by
  rw [extract_group_commands]
  by_cases h : pfx = ""
  · subst h
    rw [if_neg (by simp)]
    rfl
  · rw [if_pos h, String.append_assoc]

/-- Every command the extraction loop emits beyond the incoming list is
a leaf of the sibling filter trees: its full name is the loop's group
prefix followed by the space-joined ancestor-and-leaf path, and its
admin flag is the parent default OR the leaf handler's own explicit
admin filter. -/
theorem egcLoop_mem_aux : ∀ (n : Nat) (fs : List EFilter) (gp : String) (pa : Bool)
    (cmds : List CommandInfo) (ex : List String) (c : CommandInfo),
    sizeOf fs ≤ n → c ∈ egcLoop gp pa fs cmds ex →
    c ∈ cmds ∨ ∃ nm la, (nm, la) ∈ groupLeavesList [] fs ∧
      c.name = gp ++ nm ∧ c.admin_only = (pa || la) := by
  intro n
  induction n with
  | zero =>
    intro fs gp pa cmds ex c hle hc
    exfalso
    cases fs <;> simp_arith at hle
  | succ n ih =>
    intro fs gp pa cmds ex c hle hc
    cases fs with
    | nil =>
      rw [egcLoop_nil] at hc
      exact Or.inl hc
    | cons f rest =>
      have hrest : sizeOf rest ≤ n := by
        simp only [List.cons.sizeOf_spec] at hle
        omega
      cases f with
      | cmd cname calias hmd =>
        rw [egcLoop_cmd] at hc
        by_cases hin : gp ++ cname ∈ ex
        · rw [if_pos hin] at hc
          rcases ih rest gp pa cmds ex c hrest hc with h | ⟨nm, la, hmem, hname, hadm⟩
          · exact Or.inl h
          · exact Or.inr ⟨nm, la,
              by rw [groupLeavesList_cons]; exact List.mem_append_right _ hmem, hname, hadm⟩
        · rw [if_neg hin] at hc
          rcases ih rest gp pa _ _ c hrest hc with h | ⟨nm, la, hmem, hname, hadm⟩
          · rcases List.mem_append.mp h with h2 | h2
            · exact Or.inl h2
            · rw [List.mem_singleton] at h2
              subst h2
              cases hmd with
              | none =>
                refine Or.inr ⟨cname, false, ?_, rfl, rfl⟩
                rw [groupLeavesList_cons, groupLeaves_nil_cmd]
                exact List.mem_append_left _ (by simp)
              | some hh =>
                refine Or.inr ⟨cname, hasAdminFilter (HMeta.eventFilters hh), ?_, rfl, rfl⟩
                rw [groupLeavesList_cons, groupLeaves_nil_cmd]
                exact List.mem_append_left _ (by simp)
          · exact Or.inr ⟨nm, la,
              by rw [groupLeavesList_cons]; exact List.mem_append_right _ hmem, hname, hadm⟩
      | group g2 gsubs2 =>
        rw [egcLoop_group] at hc
        rcases ih rest gp pa _ ex c hrest hc with h | ⟨nm, la, hmem, hname, hadm⟩
        · rw [extract_group_commands_eq] at h
          have hsz2 : sizeOf gsubs2 ≤ n := by
            simp only [List.cons.sizeOf_spec, EFilter.group.sizeOf_spec] at hle
            omega
          rcases ih gsubs2 (gp ++ (g2 ++ " ")) pa cmds _ c hsz2 h with
            h2 | ⟨nm2, la, hmem2, hname2, hadm2⟩
          · exact Or.inl h2
          · refine Or.inr ⟨g2 ++ " " ++ nm2, la, ?_, ?_, hadm2⟩
            · rw [groupLeavesList_cons, groupLeaves_nil_group]
              apply List.mem_append_left
              rw [List.mem_map]
              exact ⟨(nm2, la), hmem2, rfl⟩
            · rw [hname2, String.append_assoc]
        · exact Or.inr ⟨nm, la,
            by rw [groupLeavesList_cons]; exact List.mem_append_right _ hmem, hname, hadm⟩
      | perm b =>
        rw [egcLoop_perm] at hc
        rcases ih rest gp pa cmds ex c hrest hc with h | ⟨nm, la, hmem, hname, hadm⟩
        · exact Or.inl h
        · refine Or.inr ⟨nm, la, ?_, hname, hadm⟩
          rw [groupLeavesList_cons]
          exact List.mem_append_right _ hmem

/-- C2: (general part) every command emitted by flattening a group
filter is a leaf of the tree whose full name is the space-joined
ancestor group names followed by the leaf command name, and whose admin
flag is the parent handler's admin flag OR-ed with the leaf handler's
own explicit admin permission filter (so the parent's flag is the
default and an explicit leaf filter overrides it to true);
(concrete part) a handler registered as the 2-level nested group
`parent > child > leaf("x")` together with a separate same-module
handler registered under the nested sub-group name `child` alone
produces exactly one command, `"parent child x"`, for the owning
plugin — the `child` handler is suppressed. -/
theorem c2_claim :
    (∀ (gname : String) (gsubs : List EFilter) (pa : Bool) (cmds : List CommandInfo)
        (c : CommandInfo), c ∈ extract_group_commands gname gsubs pa "" cmds →
      c ∈ cmds ∨ ∃ la, (c.name, la) ∈ groupLeaves [] (.group gname gsubs) ∧
        c.admin_only = (pa || la)) ∧
    populate_commands
        [⟨1, "m", none, [.group "parent" [.group "child"
            [.cmd "x" [] (some (.mk 2 "m" (some "do x") []))]]]⟩,
         ⟨3, "m", none, [.group "child"
            [.cmd "x" [] (some (.mk 2 "m" (some "do x") []))]]⟩]
        [("m", "plug")]
        [("plug", mkPluginInfo "plug" "" "" [] "" (.vint 99))] =
      [("plug", { name := "plug", display_name := "plug",
                  commands := [{ name := "parent child x", description := "do x" }] })] := by
  constructor
  · intro gname gsubs pa cmds c hc
    rw [extract_group_commands_eq] at hc
    rcases egcLoop_mem_aux (sizeOf gsubs) gsubs _ pa cmds _ c le_rfl hc with
      h | ⟨nm, la, hmem, hname, hadm⟩
    · exact Or.inl h
    · refine Or.inr ⟨la, ?_, hadm⟩
      rw [groupLeaves_nil_group, List.mem_map]
      refine ⟨(nm, la), hmem, ?_⟩
      rw [hname]
      rfl
  · simp [populate_commands, scan_handler_groups, scanGroupsStep,
      assign_handlers_to_plugins, extract_commands, extract_group_commands, egcLoop,
      collect_group_handler_ids, collect_nested_group_names, addNestedNames, alookup,
      lastCmdFilter, lastGroupFilter, hasAdminFilter, HMeta.hid, HMeta.modulePath,
      HMeta.hdesc, HMeta.eventFilters, mkPluginInfo, PluginInfo.postInit]

/-- C2 witness: the general conjunct applied to a one-level group with
an admin parent and a filterless leaf — the emitted command
`"g x"` is a leaf with `la = false` and inherits the parent's admin
flag. -/
theorem c2_witness :
    (⟨"g x", "", [], "", true, none⟩ : CommandInfo) ∈
        extract_group_commands "g" [.cmd "x" [] none] true "" [] ∧
    ((⟨"g x", "", [], "", true, none⟩ : CommandInfo) ∈ ([] : List CommandInfo) ∨
      ∃ la, (("g x", la) ∈ groupLeaves [] (.group "g" [.cmd "x" [] none])) ∧
        true = (true || la)) :=
  ⟨by simp [extract_group_commands, egcLoop],
    (c2_claim.1 "g" [.cmd "x" [] none] true [] ⟨"g x", "", [], "", true, none⟩
      (by simp [extract_group_commands, egcLoop]))⟩

/-! ### C7 — name uniqueness within one plugin -/

/-- C7 counterexample: custom-category population appends parsed
commands with no duplicate-name check, so a category whose configured
list repeats a name yields one PluginInfo with two commands of the
same name. -/
theorem c7_counterexample :
    (collector_category_plugin ⟨"c", "", none, ["a|x", "a|y"]⟩).map
        (fun p => p.commands.map CommandInfo.name) = some ["a", "a"] ∧
    ¬ (["a", "a"] : List String).Nodup := by
  constructor
  · decide
  · decide

/-- String concatenation cancels on the left. -/
theorem string_append_cancel_left (a b c : String) (h : a ++ b = a ++ c) : b = c :=
  String.ext (List.append_cancel_left (congrArg String.data h))

/-- Any name of the form `(g ++ " ") ++ nm` contains a space. -/
theorem space_mem_group_name (g nm : String) : ' ' ∈ ((g ++ " ") ++ nm).data := by
  simp

/-- Appending a fresh element preserves `Nodup`. -/
theorem nodup_append_singleton {α : Type} (l : List α) (a : α) (h : l.Nodup)
    (h2 : a ∉ l) : (l ++ [a]).Nodup := by
  rw [List.nodup_append]
  refine ⟨h, List.nodup_singleton a, ?_⟩
  intro x hx hxa
  rw [List.mem_singleton] at hxa
  subst hxa
  exact h2 hx

/-- `noSpaceLeaves` distributes over a cons cell. -/
theorem noSpaceLeaves_cons (f : EFilter) (rest : List EFilter)
    (h : noSpaceLeaves (f :: rest) = true) :
    noSpaceLeaves rest = true ∧
    (∀ cname calias hmd, f = .cmd cname calias hmd → cname.data.contains ' ' = false) ∧
    (∀ g subs, f = .group g subs → noSpaceLeaves subs = true) := by
  cases f with
  | cmd cname calias hmd =>
    rw [noSpaceLeaves, Bool.and_eq_true] at h
    refine ⟨h.2, ?_, ?_⟩
    · intro cn ca hm he
      cases he
      simpa using h.1
    · intro g subs he
      cases he
  | group g subs =>
    rw [noSpaceLeaves, Bool.and_eq_true] at h
    refine ⟨h.2, ?_, ?_⟩
    · intro cn ca hm he
      cases he
    · intro g2 subs2 he
      cases he
      exact h.1
  | perm b =>
    rw [noSpaceLeaves] at h
    refine ⟨h, ?_, ?_⟩
    · intro cn ca hm he
      cases he
    · intro g subs he
      cases he

/-- The extraction loop preserves name uniqueness when no leaf command
name contains a space: the stale `existing_names` snapshot can only
miss names introduced by nested sub-groups, and those always contain a
space after the loop's prefix, so they cannot collide with a
space-free leaf name. -/
theorem egcLoop_nodup_aux : ∀ (n : Nat) (fs : List EFilter) (gp : String) (pa : Bool)
    (cmds : List CommandInfo) (ex : List String),
    sizeOf fs ≤ n →
    noSpaceLeaves fs = true →
    (cmds.map CommandInfo.name).Nodup →
    (∀ nm ∈ cmds.map CommandInfo.name, nm ∈ ex ∨ ∃ t, nm = gp ++ t ∧ ' ' ∈ t.data) →
    ((egcLoop gp pa fs cmds ex).map CommandInfo.name).Nodup := by
  intro n
  induction n with
  | zero =>
    intro fs gp pa cmds ex hle _ _ _
    exfalso
    cases fs <;> simp_arith at hle
  | succ n ih =>
    intro fs gp pa cmds ex hle hns hnd hex
    cases fs with
    | nil =>
      rw [egcLoop_nil]
      exact hnd
    | cons f rest =>
      have hrest : sizeOf rest ≤ n := by
        simp only [List.cons.sizeOf_spec] at hle
        omega
      obtain ⟨hns_rest, hns_cmd, hns_grp⟩ := noSpaceLeaves_cons f rest hns
      cases f with
      | cmd cname calias hmd =>
        rw [egcLoop_cmd]
        by_cases hin : gp ++ cname ∈ ex
        · rw [if_pos hin]
          exact ih rest gp pa cmds ex hrest hns_rest hnd hex
        · rw [if_neg hin]
          have hfresh : gp ++ cname ∉ cmds.map CommandInfo.name := by
            intro hmm
            rcases hex _ hmm with hmem | ⟨t, ht, hsp⟩
            · exact hin hmem
            · have hct : cname = t := string_append_cancel_left gp cname t ht
              subst hct
              have hns2 := hns_cmd cname calias hmd rfl
              have hsp2 : cname.data.contains ' ' = true := by simpa using hsp
              rw [hns2] at hsp2
              exact Bool.false_ne_true hsp2
          apply ih rest gp pa _ _ hrest hns_rest
          · rw [List.map_append, List.map_cons, List.map_nil]
            exact nodup_append_singleton _ _ hnd hfresh
          · intro nm hnm
            rw [List.map_append, List.map_cons, List.map_nil] at hnm
            rcases List.mem_append.mp hnm with hold | hnew
            · rcases hex nm hold with hmem | hsh
              · exact Or.inl (List.mem_append_left _ hmem)
              · exact Or.inr hsh
            · rw [List.mem_singleton] at hnew
              subst hnew
              exact Or.inl (List.mem_append_right _ (by simp))
      | group g2 gsubs2 =>
        rw [egcLoop_group, extract_group_commands_eq]
        have hsz2 : sizeOf gsubs2 ≤ n := by
          simp only [List.cons.sizeOf_spec, EFilter.group.sizeOf_spec] at hle
          omega
        have hinner : ((egcLoop (gp ++ (g2 ++ " ")) pa gsubs2 cmds
            (cmds.map CommandInfo.name)).map CommandInfo.name).Nodup := by
          apply ih gsubs2 (gp ++ (g2 ++ " ")) pa cmds (cmds.map CommandInfo.name) hsz2
            (hns_grp g2 gsubs2 rfl) hnd
          intro nm hnm
          exact Or.inl hnm
        apply ih rest gp pa _ ex hrest hns_rest hinner
        intro nm hnm
        rw [List.mem_map] at hnm
        obtain ⟨c2, hc2, rfl⟩ := hnm
        rcases egcLoop_mem_aux (sizeOf gsubs2) gsubs2 _ pa cmds _ c2 le_rfl hc2 with
          hold | ⟨nm0, la, hmem0, hname0, hadm0⟩
        · exact hex c2.name (List.mem_map_of_mem CommandInfo.name hold)
        · right
          refine ⟨(g2 ++ " ") ++ nm0, ?_, ?_⟩
          · rw [hname0, String.append_assoc]
          · exact space_mem_group_name g2 nm0
      | perm b =>
        rw [egcLoop_perm]
        exact ih rest gp pa cmds ex hrest hns_rest hnd hex

/-- The group filter selected by the last-wins scan is one of the
handler's filters. -/
theorem lastGroupFilter_mem : ∀ (fs : List EFilter) (acc : Option (String × List EFilter))
    (g : String) (subs : List EFilter),
    fs.foldl (fun acc f => match f with | .group n s => some (n, s) | _ => acc) acc
      = some (g, subs) →
    EFilter.group g subs ∈ fs ∨ acc = some (g, subs) := by
  intro fs
  induction fs with
  | nil =>
    intro acc g subs h
    exact Or.inr h
  | cons f rest ih =>
    intro acc g subs h
    rw [List.foldl_cons] at h
    rcases ih _ g subs h with hmem | hacc
    · exact Or.inl (List.mem_cons_of_mem _ hmem)
    · cases f with
      | cmd cn ca hm => exact Or.inr hacc
      | perm b => exact Or.inr hacc
      | group n s =>
        simp only [Option.some.injEq, Prod.mk.injEq] at hacc
        obtain ⟨rfl, rfl⟩ := hacc
        exact Or.inl (List.mem_cons_self _ _)

/-- A group filter occurring in a space-free filter list has
space-free sub-filters. -/
theorem noSpaceLeaves_of_group_mem : ∀ (fs : List EFilter) (g : String)
    (subs : List EFilter), noSpaceLeaves fs = true → EFilter.group g subs ∈ fs →
    noSpaceLeaves subs = true := by
  intro fs
  induction fs with
  | nil =>
    intro g subs _ hmem
    simp at hmem
  | cons f rest ih =>
    intro g subs hns hmem
    obtain ⟨hns_rest, _, hns_grp⟩ := noSpaceLeaves_cons f rest hns
    rcases List.mem_cons.mp hmem with rfl | hmem2
    · exact hns_grp g subs rfl
    · exact ih g subs hns_rest hmem2

/-- Unfolding of `extract_commands`. -/
theorem extract_commands_eq (h : HMeta) (cmds : List CommandInfo) :
    extract_commands h cmds =
      match lastCmdFilter (HMeta.eventFilters h) with
      | some (cname, calias) =>
        if cname ∈ cmds.map CommandInfo.name then cmds
        else cmds ++ [⟨cname, (HMeta.hdesc h).getD "", calias, "",
          hasAdminFilter (HMeta.eventFilters h), none⟩]
      | none =>
        match lastGroupFilter (HMeta.eventFilters h) with
        | some (gname, gsubs) =>
          extract_group_commands gname gsubs (hasAdminFilter (HMeta.eventFilters h)) "" cmds
        | none => cmds := rfl

/-- Discovery via `extract_commands` preserves name uniqueness when no
leaf name in the handler's filters contains a space. -/
theorem extract_commands_nodup (h : HMeta) (cmds : List CommandInfo)
    (hns : noSpaceLeaves (HMeta.eventFilters h) = true)
    (hnd : (cmds.map CommandInfo.name).Nodup) :
    ((extract_commands h cmds).map CommandInfo.name).Nodup := by
  rw [extract_commands_eq]
  cases hcase : lastCmdFilter (HMeta.eventFilters h) with
  | some pr =>
    obtain ⟨cname, calias⟩ := pr
    simp only
    by_cases hmem : cname ∈ cmds.map CommandInfo.name
    · rw [if_pos hmem]
      exact hnd
    · rw [if_neg hmem]
      rw [List.map_append, List.map_cons, List.map_nil]
      exact nodup_append_singleton _ _ hnd hmem
  | none =>
    simp only
    cases hgrp : lastGroupFilter (HMeta.eventFilters h) with
    | some pr =>
      obtain ⟨gname, gsubs⟩ := pr
      simp only
      rw [extract_group_commands_eq]
      apply egcLoop_nodup_aux (sizeOf gsubs) gsubs _ _ cmds
        (cmds.map CommandInfo.name) le_rfl _ hnd
      · intro nm hnm
        exact Or.inl hnm
      · rcases lastGroupFilter_mem (HMeta.eventFilters h) none gname gsubs hgrp with
          hm | habs
        · exact noSpaceLeaves_of_group_mem _ gname gsubs hns hm
        · exact absurd habs (by simp)
    | none =>
      exact hnd

/-- The remove-then-append override merge preserves name uniqueness,
whichever revision's parser is used. -/
theorem apply_extra_commands_nodup (parse : String → Option CommandInfo) :
    ∀ (raws : List String) (cs : List CommandInfo), (cs.map CommandInfo.name).Nodup →
    ((apply_extra_commands parse cs raws).map CommandInfo.name).Nodup := by
  intro raws
  induction raws with
  | nil =>
    intro cs h
    exact h
  | cons raw rest ih =>
    intro cs h
    show ((apply_extra_commands parse _ rest).map CommandInfo.name).Nodup
    cases hp : parse raw with
    | none =>
      simp only [apply_extra_commands, List.foldl_cons, hp]
      exact ih cs h
    | some cmd =>
      simp only [apply_extra_commands, List.foldl_cons, hp]
      apply ih
      rw [List.map_append, List.map_cons, List.map_nil]
      apply nodup_append_singleton
      · exact List.Nodup.sublist ((List.filter_sublist cs).map CommandInfo.name) h
      · intro hcm
        rw [List.mem_map] at hcm
        obtain ⟨c, hc, hname⟩ := hcm
        rw [List.mem_filter] at hc
        have h2 := hc.2
        simp at h2
        exact h2 hname

/-- C7 (amended): within one plugin's command list, discovery
(`extract_commands`, both plain commands and recursively flattened
groups) preserves name uniqueness provided no leaf command name in the
handler's filter tree contains a space, and override application
(remove-then-append, either revision) preserves name uniqueness
unconditionally; custom-category population is excluded, since it
appends parsed commands without any duplicate check. -/
theorem c7_claim :
    (∀ (h : HMeta) (cmds : List CommandInfo),
      noSpaceLeaves (HMeta.eventFilters h) = true →
      (cmds.map CommandInfo.name).Nodup →
      ((extract_commands h cmds).map CommandInfo.name).Nodup) ∧
    (∀ (p : PluginInfo) (o : Override), (p.commands.map CommandInfo.name).Nodup →
      ((collector_apply_override p o).commands.map CommandInfo.name).Nodup ∧
      ((main_apply_override p o).commands.map CommandInfo.name).Nodup) := by
  constructor
  · exact extract_commands_nodup
  · intro p o hnd
    constructor
    · rw [collector_apply_override_commands]
      exact apply_extra_commands_nodup collector_parse_pipe_command o.extra_commands
        p.commands hnd
    · rw [main_apply_override_commands]
      exact apply_extra_commands_nodup main_parse_pipe_command o.extra_commands
        p.commands hnd

/-- C7 witness: the theorem applied to a concrete grouped handler and a
concrete override. -/
theorem c7_witness :
    noSpaceLeaves (HMeta.eventFilters
        (.mk 1 "m" none [.group "g" [.cmd "x" [] none, .cmd "x" [] none]])) = true ∧
    ((([{ name := "a" }] : List CommandInfo)).map CommandInfo.name).Nodup ∧
    ((extract_commands (.mk 1 "m" none [.group "g" [.cmd "x" [] none, .cmd "x" [] none]])
        [{ name := "a" }]).map CommandInfo.name).Nodup ∧
    ((collector_apply_override { name := "p", commands := [{ name := "a" }] }
        { plugin_name := "p", extra_commands := ["a|B"] }).commands.map
          CommandInfo.name).Nodup :=
  ⟨by simp [noSpaceLeaves, HMeta.eventFilters], by decide,
    c7_claim.1 (.mk 1 "m" none [.group "g" [.cmd "x" [] none, .cmd "x" [] none]])
      [{ name := "a" }] (by simp [noSpaceLeaves, HMeta.eventFilters]) (by decide),
    (c7_claim.2 { name := "p", commands := [{ name := "a" }] }
      { plugin_name := "p", extra_commands := ["a|B"] } (by decide)).1⟩

/-! ### C1 — at-most-one concurrent render per key -/

/-- Lookup distributes over append, preferring the left list. -/
theorem alookup_append {α : Type} (k : String) (l1 l2 : List (String × α)) :
    alookup k (l1 ++ l2) =
      match alookup k l1 with
      | some v => some v
      | none => alookup k l2 := by
  induction l1 with
  | nil => rfl
  | cons kv rest ih =>
    obtain ⟨k2, v⟩ := kv
    simp only [List.cons_append, alookup]
    by_cases h : k2 = k
    · rw [if_pos h, if_pos h]
    · rw [if_neg h, if_neg h]
      exact ih

/-- Updating a key rewrites its lookup when the key is present. -/
theorem alookup_updA_self {α : Type} (k : String) (v : α) (l : List (String × α))
    (w : α) (h : alookup k l = some w) : alookup k (updA k v l) = some v := by
  induction l with
  | nil => simp [alookup] at h
  | cons kv rest ih =>
    obtain ⟨k2, w2⟩ := kv
    simp only [alookup, updA] at h ⊢
    by_cases hk : k2 = k
    · rw [if_pos hk]
      simp only [alookup, if_pos hk]
    · rw [if_neg hk]
      rw [if_neg hk] at h
      simp only [alookup, if_neg hk]
      exact ih h

/-- Updating one key leaves other keys' lookups unchanged. -/
theorem alookup_updA_ne {α : Type} (k k2 : String) (v : α) (l : List (String × α))
    (h : k2 ≠ k) : alookup k2 (updA k v l) = alookup k2 l := by
  induction l with
  | nil => rfl
  | cons kv rest ih =>
    obtain ⟨k3, w⟩ := kv
    simp only [alookup, updA]
    by_cases hk : k3 = k
    · rw [if_pos hk]
      have hne : ¬ k3 = k2 := by
        rw [hk]
        exact fun he => h he.symm
      simp only [alookup, if_neg hne]
    · rw [if_neg hk]
      simp only [alookup]
      by_cases hk2 : k3 = k2
      · rw [if_pos hk2, if_pos hk2]
      · rw [if_neg hk2, if_neg hk2]
        exact ih

/-- `setdefaultA` never disturbs a successful lookup. -/
theorem alookup_setdefaultA_of_some {α : Type} (k k2 : String) (v w : α)
    (l : List (String × α)) (h : alookup k2 l = some w) :
    alookup k2 (setdefaultA k v l) = some w := by
  rw [setdefaultA]
  cases hk : alookup k l with
  | some u => exact h
  | none =>
    rw [alookup_append, h]

/-- A holder recorded after `setdefaultA k none` was already recorded
before. -/
theorem alookup_setdefaultA_none_inv (k k2 : String) (j : Nat)
    (l : List (String × Option Nat))
    (h : alookup k2 (setdefaultA k none l) = some (some j)) :
    alookup k2 l = some (some j) := by
  rw [setdefaultA] at h
  revert h
  cases hk : alookup k l with
  | some u => exact fun h => h
  | none =>
    intro h
    rw [alookup_append] at h
    revert h
    cases h2 : alookup k2 l with
    | some u => exact fun h => h
    | none =>
      intro h
      simp only [alookup] at h
      by_cases he : k = k2
      · rw [if_pos he] at h
        exact absurd h (by simp)
      · rw [if_neg he] at h
        simp [alookup] at h

/-- Storing a key makes it cached. -/
theorem alookup_cacheStore_self (k : String) (v : Nat) (l : List (String × Nat)) :
    alookup k (cacheStore k v l) = some v := by
  rw [cacheStore]
  cases hk : alookup k l with
  | some u => exact alookup_updA_self k v l u hk
  | none =>
    rw [alookup_append, hk]
    simp [alookup]

/-- Storing one key leaves other keys' cache lookups unchanged. -/
theorem alookup_cacheStore_ne (k k2 : String) (v : Nat) (l : List (String × Nat))
    (h : k2 ≠ k) : alookup k2 (cacheStore k v l) = alookup k2 l := by
  rw [cacheStore]
  cases hk : alookup k l with
  | some u => exact alookup_updA_ne k k2 v l h
  | none =>
    rw [alookup_append]
    cases h2 : alookup k2 l with
    | some u => rfl
    | none =>
      simp only [alookup]
      rw [if_neg (fun he => h he.symm)]

/-- Setting an index yields that element there. -/
theorem get_set_self {α : Type} (l : List α) (i : Nat) (t : α)
    (h : i < (l.set i t).length) : (l.set i t).get ⟨i, h⟩ = t := by
  rw [List.get_eq_getElem]
  exact List.getElem_set_self h

/-- Setting an index leaves other positions unchanged. -/
theorem get_set_other {α : Type} (l : List α) (i j : Nat) (t : α) (hne : i ≠ j)
    (h : j < (l.set i t).length) (h2 : j < l.length) :
    (l.set i t).get ⟨j, h⟩ = l.get ⟨j, h2⟩ := by
  rw [List.get_eq_getElem, List.get_eq_getElem]
  exact List.getElem_set_ne hne h

/-- Replacing a task that neither was nor becomes a mid-render task
for `k` does not change whether some task is mid-render for `k`. -/
theorem renderWait_exists_set_iff (T : List RTask) (i : Nat) (hi : i < T.length)
    (t : RTask) (k : String)
    (hold : ¬((T.get ⟨i, hi⟩).key = k ∧ (T.get ⟨i, hi⟩).pc = .renderWait))
    (hnew : ¬(t.key = k ∧ t.pc = .renderWait)) :
    (∃ j, ∃ hj : j < (T.set i t).length,
        ((T.set i t).get ⟨j, hj⟩).key = k ∧ ((T.set i t).get ⟨j, hj⟩).pc = .renderWait) ↔
    (∃ j, ∃ hj : j < T.length,
        (T.get ⟨j, hj⟩).key = k ∧ (T.get ⟨j, hj⟩).pc = .renderWait) := by
  constructor
  · rintro ⟨j, hj, hkey, hpc⟩
    have hj2 : j < T.length := by simpa using hj
    by_cases hij : i = j
    · subst hij
      rw [get_set_self T i t hj] at hkey hpc
      exact absurd ⟨hkey, hpc⟩ hnew
    · rw [get_set_other T i j t hij hj hj2] at hkey hpc
      exact ⟨j, hj2, hkey, hpc⟩
  · rintro ⟨j, hj, hkey, hpc⟩
    have hj2 : j < (T.set i t).length := by simpa using hj
    by_cases hij : i = j
    · subst hij
      have hkey2 : (T.get ⟨i, hi⟩).key = k := hkey
      have hpc2 : (T.get ⟨i, hi⟩).pc = .renderWait := hpc
      exact absurd ⟨hkey2, hpc2⟩ hold
    · refine ⟨j, hj2, ?_, ?_⟩ <;> rw [get_set_other T i j t hij hj2 hj] <;> assumption

/-- One step of the cache layer preserves the invariant. -/
theorem cinv_step (k : String) (rf : String → Nat) (s s2 : Sys)
    (hstep : Step rf s s2) (hinv : CInv k s) : CInv k s2 := by
  cases hstep with
  | fastHit i hi k2 v htask hcache =>
    refine ⟨?_, ?_, ?_, ?_, ?_⟩
    · intro key j hl
      obtain ⟨hj, hkeyj, hpcj⟩ := hinv.holder_mem key j hl
      have hij : i ≠ j := by
        intro he
        subst he
        have htask2 : s.tasks.get ⟨i, hj⟩ = ⟨k2, .start⟩ := htask
        rw [htask2] at hpcj
        rcases hpcj with h | h <;> exact absurd h (by simp)
      have hb : j < (s.tasks.set i ⟨k2, .done v⟩).length := by
        rw [List.length_set]
        exact hj
      refine ⟨hb, ?_, ?_⟩
      · rw [get_set_other s.tasks i j _ hij hb hj]
        exact hkeyj
      · rw [get_set_other s.tasks i j _ hij hb hj]
        exact hpcj
    · intro j hj2 hpc
      have hj : j < s.tasks.length := by simpa using hj2
      by_cases hij : i = j
      · subst hij
        rw [get_set_self s.tasks i _ hj2] at hpc
        rcases hpc with h | h <;> exact absurd h (by simp)
      · rw [get_set_other s.tasks i j _ hij hj2 hj] at hpc ⊢
        exact hinv.crit_holder j hj hpc
    · exact hinv.count_le
    · refine hinv.count_iff.trans (or_congr Iff.rfl
        (renderWait_exists_set_iff s.tasks i hi ⟨k2, .done v⟩ k ?_ ?_)).symm
      · rintro ⟨_, hp⟩
        rw [htask] at hp
        exact absurd hp (by simp)
      · rintro ⟨_, hp⟩
        exact absurd hp (by simp)
    · intro j hj2 v2 hpc
      have hj : j < s.tasks.length := by simpa using hj2
      by_cases hij : i = j
      · subst hij
        rw [get_set_self s.tasks i _ hj2]
        simp [hcache]
      · rw [get_set_other s.tasks i j _ hij hj2 hj] at hpc ⊢
        exact hinv.done_cached j hj v2 hpc
  | fastMiss i hi k2 htask hcache =>
    refine ⟨?_, ?_, ?_, ?_, ?_⟩
    · intro key j hl
      have hl2 : alookup key s.locks = some (some j) :=
        alookup_setdefaultA_none_inv k2 key j s.locks hl
      obtain ⟨hj, hkeyj, hpcj⟩ := hinv.holder_mem key j hl2
      have hij : i ≠ j := by
        intro he
        subst he
        have htask2 : s.tasks.get ⟨i, hj⟩ = ⟨k2, .start⟩ := htask
        rw [htask2] at hpcj
        rcases hpcj with h | h <;> exact absurd h (by simp)
      have hb : j < (s.tasks.set i ⟨k2, .waiting⟩).length := by
        rw [List.length_set]
        exact hj
      refine ⟨hb, ?_, ?_⟩
      · rw [get_set_other s.tasks i j _ hij hb hj]
        exact hkeyj
      · rw [get_set_other s.tasks i j _ hij hb hj]
        exact hpcj
    · intro j hj2 hpc
      have hj : j < s.tasks.length := by simpa using hj2
      by_cases hij : i = j
      · subst hij
        rw [get_set_self s.tasks i _ hj2] at hpc
        rcases hpc with h | h <;> exact absurd h (by simp)
      · rw [get_set_other s.tasks i j _ hij hj2 hj] at hpc ⊢
        exact alookup_setdefaultA_of_some k2 _ none _ s.locks
          (hinv.crit_holder j hj hpc)
    · exact hinv.count_le
    · refine hinv.count_iff.trans (or_congr Iff.rfl
        (renderWait_exists_set_iff s.tasks i hi ⟨k2, .waiting⟩ k ?_ ?_)).symm
      · rintro ⟨_, hp⟩
        rw [htask] at hp
        exact absurd hp (by simp)
      · rintro ⟨_, hp⟩
        exact absurd hp (by simp)
    · intro j hj2 v2 hpc
      have hj : j < s.tasks.length := by simpa using hj2
      by_cases hij : i = j
      · subst hij
        rw [get_set_self s.tasks i _ hj2] at hpc
        exact absurd hpc (by simp)
      · rw [get_set_other s.tasks i j _ hij hj2 hj] at hpc ⊢
        exact hinv.done_cached j hj v2 hpc
  | acquire i hi k2 htask hlock =>
    refine ⟨?_, ?_, ?_, ?_, ?_⟩
    · intro key j hl
      by_cases hkey : key = k2
      · subst hkey
        rw [alookup_updA_self key (some i) s.locks none hlock] at hl
        simp only [Option.some.injEq] at hl
        obtain rfl : i = j := hl
        have hb : i < (s.tasks.set i ⟨key, .critical⟩).length := by
          rw [List.length_set]
          exact hi
        refine ⟨hb, ?_, ?_⟩
        · rw [get_set_self s.tasks i _ hb]
        · rw [get_set_self s.tasks i _ hb]
          exact Or.inl rfl
      · rw [alookup_updA_ne k2 key (some i) s.locks hkey] at hl
        obtain ⟨hj, hkeyj, hpcj⟩ := hinv.holder_mem key j hl
        have hij : i ≠ j := by
          intro he
          subst he
          have htask2 : s.tasks.get ⟨i, hj⟩ = ⟨k2, .waiting⟩ := htask
          rw [htask2] at hpcj
          rcases hpcj with h | h <;> exact absurd h (by simp)
        have hb : j < (s.tasks.set i ⟨k2, .critical⟩).length := by
          rw [List.length_set]
          exact hj
        refine ⟨hb, ?_, ?_⟩
        · rw [get_set_other s.tasks i j _ hij hb hj]
          exact hkeyj
        · rw [get_set_other s.tasks i j _ hij hb hj]
          exact hpcj
    · intro j hj2 hpc
      have hj : j < s.tasks.length := by simpa using hj2
      by_cases hij : i = j
      · subst hij
        rw [get_set_self s.tasks i _ hj2]
        exact alookup_updA_self k2 (some i) s.locks none hlock
      · rw [get_set_other s.tasks i j _ hij hj2 hj] at hpc ⊢
        have hyp := hinv.crit_holder j hj hpc
        have hne : (s.tasks.get ⟨j, hj⟩).key ≠ k2 := by
          intro he
          rw [he, hlock] at hyp
          simp at hyp
        rw [alookup_updA_ne k2 _ (some i) s.locks hne]
        exact hyp
    · exact hinv.count_le
    · refine hinv.count_iff.trans (or_congr Iff.rfl
        (renderWait_exists_set_iff s.tasks i hi ⟨k2, .critical⟩ k ?_ ?_)).symm
      · rintro ⟨_, hp⟩
        rw [htask] at hp
        exact absurd hp (by simp)
      · rintro ⟨_, hp⟩
        exact absurd hp (by simp)
    · intro j hj2 v2 hpc
      have hj : j < s.tasks.length := by simpa using hj2
      by_cases hij : i = j
      · subst hij
        rw [get_set_self s.tasks i _ hj2] at hpc
        exact absurd hpc (by simp)
      · rw [get_set_other s.tasks i j _ hij hj2 hj] at hpc ⊢
        exact hinv.done_cached j hj v2 hpc
  | checkHit i hi k2 v htask hcache =>
    have hpres : alookup k2 s.locks = some (some i) := by
      have h := hinv.crit_holder i hi (Or.inl (by rw [htask]))
      rw [htask] at h
      exact h
    refine ⟨?_, ?_, ?_, ?_, ?_⟩
    · intro key j hl
      by_cases hkey : key = k2
      · subst hkey
        rw [alookup_updA_self key none s.locks (some i) hpres] at hl
        simp at hl
      · rw [alookup_updA_ne k2 key none s.locks hkey] at hl
        obtain ⟨hj, hkeyj, hpcj⟩ := hinv.holder_mem key j hl
        have hij : i ≠ j := by
          intro he
          subst he
          have htask2 : s.tasks.get ⟨i, hj⟩ = ⟨k2, .critical⟩ := htask
          rw [htask2] at hkeyj
          exact hkey hkeyj.symm
        have hb : j < (s.tasks.set i ⟨k2, .done v⟩).length := by
          rw [List.length_set]
          exact hj
        refine ⟨hb, ?_, ?_⟩
        · rw [get_set_other s.tasks i j _ hij hb hj]
          exact hkeyj
        · rw [get_set_other s.tasks i j _ hij hb hj]
          exact hpcj
    · intro j hj2 hpc
      have hj : j < s.tasks.length := by simpa using hj2
      by_cases hij : i = j
      · subst hij
        rw [get_set_self s.tasks i _ hj2] at hpc
        rcases hpc with h | h <;> exact absurd h (by simp)
      · rw [get_set_other s.tasks i j _ hij hj2 hj] at hpc ⊢
        have hyp := hinv.crit_holder j hj hpc
        have hne : (s.tasks.get ⟨j, hj⟩).key ≠ k2 := by
          intro he
          rw [he, hpres] at hyp
          simp only [Option.some.injEq] at hyp
          exact hij hyp
        rw [alookup_updA_ne k2 _ none s.locks hne]
        exact hyp
    · exact hinv.count_le
    · refine hinv.count_iff.trans (or_congr Iff.rfl
        (renderWait_exists_set_iff s.tasks i hi ⟨k2, .done v⟩ k ?_ ?_)).symm
      · rintro ⟨_, hp⟩
        rw [htask] at hp
        exact absurd hp (by simp)
      · rintro ⟨_, hp⟩
        exact absurd hp (by simp)
    · intro j hj2 v2 hpc
      have hj : j < s.tasks.length := by simpa using hj2
      by_cases hij : i = j
      · subst hij
        rw [get_set_self s.tasks i _ hj2]
        simp [hcache]
      · rw [get_set_other s.tasks i j _ hij hj2 hj] at hpc ⊢
        exact hinv.done_cached j hj v2 hpc
  | beginRender i hi k2 htask hcache =>
    have hpres : alookup k2 s.locks = some (some i) := by
      have h := hinv.crit_holder i hi (Or.inl (by rw [htask]))
      rw [htask] at h
      exact h
    refine ⟨?_, ?_, ?_, ?_, ?_⟩
    · intro key j hl
      obtain ⟨hj, hkeyj, hpcj⟩ := hinv.holder_mem key j hl
      have hb : j < (s.tasks.set i ⟨k2, .renderWait⟩).length := by
        rw [List.length_set]
        exact hj
      by_cases hij : i = j
      · subst hij
        have htask2 : s.tasks.get ⟨i, hj⟩ = ⟨k2, .critical⟩ := htask
        rw [htask2] at hkeyj
        refine ⟨hb, ?_, ?_⟩
        · rw [get_set_self s.tasks i _ hb]
          exact hkeyj
        · rw [get_set_self s.tasks i _ hb]
          exact Or.inr rfl
      · refine ⟨hb, ?_, ?_⟩
        · rw [get_set_other s.tasks i j _ hij hb hj]
          exact hkeyj
        · rw [get_set_other s.tasks i j _ hij hb hj]
          exact hpcj
    · intro j hj2 hpc
      have hj : j < s.tasks.length := by simpa using hj2
      by_cases hij : i = j
      · subst hij
        rw [get_set_self s.tasks i _ hj2]
        exact hpres
      · rw [get_set_other s.tasks i j _ hij hj2 hj] at hpc ⊢
        exact hinv.crit_holder j hj hpc
    · by_cases hk2 : k2 = k
      · have hzero : s.renderLog.count k = 0 := by
          by_contra hnz
          have h1 : 1 ≤ s.renderLog.count k := Nat.one_le_iff_ne_zero.mpr hnz
          rcases hinv.count_iff.mp h1 with hc | ⟨j, hj, hkeyj, hpcj⟩
          · rw [hk2] at hcache
            rw [hcache] at hc
            simp at hc
          · have hlj := hinv.crit_holder j hj (Or.inr hpcj)
            rw [hkeyj] at hlj
            rw [hk2] at hpres
            have hij := hpres.symm.trans hlj
            simp only [Option.some.injEq] at hij
            subst hij
            have htask2 : s.tasks.get ⟨i, hj⟩ = ⟨k2, .critical⟩ := htask
            rw [htask2] at hpcj
            exact absurd hpcj (by simp)
        rw [List.count_append, hzero, hk2]
        simp
      · rw [List.count_append]
        have h0 : List.count k [k2] = 0 := by
          simp [List.count_singleton]
          exact fun he => hk2 he
        rw [h0, Nat.add_zero]
        exact hinv.count_le
    · by_cases hk2 : k2 = k
      · apply iff_of_true
        · rw [List.count_append, hk2]
          simp
        · have hb : i < (s.tasks.set i ⟨k2, .renderWait⟩).length := by
            rw [List.length_set]
            exact hi
          refine Or.inr ⟨i, hb, ?_, ?_⟩
          · rw [get_set_self s.tasks i _ hb]
            exact hk2
          · rw [get_set_self s.tasks i _ hb]
      · have hcnt : (s.renderLog ++ [k2]).count k = s.renderLog.count k := by
          rw [List.count_append]
          have h0 : List.count k [k2] = 0 := by
            simp [List.count_singleton]
            exact fun he => hk2 he
          rw [h0, Nat.add_zero]
        rw [hcnt]
        refine hinv.count_iff.trans (or_congr Iff.rfl
          (renderWait_exists_set_iff s.tasks i hi ⟨k2, .renderWait⟩ k ?_ ?_)).symm
        · rintro ⟨_, hp⟩
          rw [htask] at hp
          exact absurd hp (by simp)
        · rintro ⟨hk, _⟩
          exact hk2 hk
    · intro j hj2 v2 hpc
      have hj : j < s.tasks.length := by simpa using hj2
      by_cases hij : i = j
      · subst hij
        rw [get_set_self s.tasks i _ hj2] at hpc
        exact absurd hpc (by simp)
      · rw [get_set_other s.tasks i j _ hij hj2 hj] at hpc ⊢
        exact hinv.done_cached j hj v2 hpc
  | finishRender i hi k2 htask =>
    have hpres : alookup k2 s.locks = some (some i) := by
      have h := hinv.crit_holder i hi (Or.inr (by rw [htask]))
      rw [htask] at h
      exact h
    refine ⟨?_, ?_, ?_, ?_, ?_⟩
    · intro key j hl
      by_cases hkey : key = k2
      · subst hkey
        rw [alookup_updA_self key none s.locks (some i) hpres] at hl
        simp at hl
      · rw [alookup_updA_ne k2 key none s.locks hkey] at hl
        obtain ⟨hj, hkeyj, hpcj⟩ := hinv.holder_mem key j hl
        have hij : i ≠ j := by
          intro he
          subst he
          have htask2 : s.tasks.get ⟨i, hj⟩ = ⟨k2, .renderWait⟩ := htask
          rw [htask2] at hkeyj
          exact hkey hkeyj.symm
        have hb : j < (s.tasks.set i ⟨k2, .done (rf k2)⟩).length := by
          rw [List.length_set]
          exact hj
        refine ⟨hb, ?_, ?_⟩
        · rw [get_set_other s.tasks i j _ hij hb hj]
          exact hkeyj
        · rw [get_set_other s.tasks i j _ hij hb hj]
          exact hpcj
    · intro j hj2 hpc
      have hj : j < s.tasks.length := by simpa using hj2
      by_cases hij : i = j
      · subst hij
        rw [get_set_self s.tasks i _ hj2] at hpc
        rcases hpc with h | h <;> exact absurd h (by simp)
      · rw [get_set_other s.tasks i j _ hij hj2 hj] at hpc ⊢
        have hyp := hinv.crit_holder j hj hpc
        have hne : (s.tasks.get ⟨j, hj⟩).key ≠ k2 := by
          intro he
          rw [he, hpres] at hyp
          simp only [Option.some.injEq] at hyp
          exact hij hyp
        rw [alookup_updA_ne k2 _ none s.locks hne]
        exact hyp
    · exact hinv.count_le
    · by_cases hk2 : k2 = k
      · apply iff_of_true
        · apply hinv.count_iff.mpr
          refine Or.inr ⟨i, hi, ?_, ?_⟩
          · rw [htask]
            exact hk2
          · rw [htask]
        · left
          rw [hk2, alookup_cacheStore_self k (rf k) s.cache]
          rfl
      · have hc : alookup k (cacheStore k2 (rf k2) s.cache) = alookup k s.cache :=
          alookup_cacheStore_ne k2 k (rf k2) s.cache (fun he => hk2 he.symm)
        have hgoal := hinv.count_iff.trans (or_congr Iff.rfl
          (renderWait_exists_set_iff s.tasks i hi ⟨k2, .done (rf k2)⟩ k ?_ ?_)).symm
        · rw [show ({ s with
              tasks := s.tasks.set i ⟨k2, .done (rf k2)⟩,
              cache := cacheStore k2 (rf k2) s.cache,
              locks := updA k2 none s.locks } : Sys).cache
            = cacheStore k2 (rf k2) s.cache from rfl, hc]
          exact hgoal
        · rintro ⟨hk, _⟩
          rw [htask] at hk
          exact hk2 hk
        · rintro ⟨_, hp⟩
          exact absurd hp (by simp)
    · intro j hj2 v2 hpc
      have hj : j < s.tasks.length := by simpa using hj2
      by_cases hij : i = j
      · subst hij
        rw [get_set_self s.tasks i _ hj2]
        rw [alookup_cacheStore_self k2 (rf k2) s.cache]
        rfl
      · rw [get_set_other s.tasks i j _ hij hj2 hj] at hpc ⊢
        have hprev := hinv.done_cached j hj v2 hpc
        by_cases hkj : (s.tasks.get ⟨j, hj⟩).key = k2
        · rw [hkj, alookup_cacheStore_self k2 (rf k2) s.cache]
          rfl
        · rw [alookup_cacheStore_ne k2 _ (rf k2) s.cache hkj]
          exact hprev

/-- The invariant holds in any initial state. -/
theorem cinv_init (k : String) (s : Sys) (hinit : InitFor s k) : CInv k s := by
  obtain ⟨hstart, hcache, hlocks, hlog⟩ := hinit
  refine ⟨?_, ?_, ?_, ?_, ?_⟩
  · intro key j hl
    rw [hlocks] at hl
    simp [alookup] at hl
  · intro j hj hpc
    have hs := hstart _ (List.get_mem s.tasks j hj)
    rcases hpc with h | h <;> rw [hs] at h <;> exact absurd h (by simp)
  · rw [hlog]
    simp
  · rw [hlog]
    simp only [List.count_nil]
    constructor
    · intro h
      omega
    · rintro (hc | ⟨j, hj, hkeyj, hpcj⟩)
      · rw [hcache] at hc
        exact absurd hc (by simp)
      · have hs := hstart _ (List.get_mem s.tasks j hj)
        rw [hs] at hpcj
        exact absurd hpcj (by simp)
  · intro j hj v hpc
    have hs := hstart _ (List.get_mem s.tasks j hj)
    rw [hs] at hpc
    exact absurd hpc (by simp)

/-- The invariant holds in every reachable state. -/
theorem cinv_reach (k : String) (rf : String → Nat) (s0 s : Sys) (hinit : InitFor s0 k)
    (hreach : Reaches rf s0 s) : CInv k s := by
  induction hreach with
  | refl => exact cinv_init k s0 hinit
  | tail hr hstep ih => exact cinv_step k rf _ _ hstep ih

/-- Steps never change the number of tasks. -/
theorem step_tasks_length (rf : String → Nat) (s s2 : Sys) (hstep : Step rf s s2) :
    s2.tasks.length = s.tasks.length := by
  cases hstep <;> simp [List.length_set]

/-- Steps never change a task's key. -/
theorem step_tasks_key (rf : String → Nat) (s s2 : Sys) (hstep : Step rf s s2)
    (j : Nat) (hj : j < s.tasks.length) (hj2 : j < s2.tasks.length) :
    (s2.tasks.get ⟨j, hj2⟩).key = (s.tasks.get ⟨j, hj⟩).key := by
  cases hstep with
  | fastHit i hi k2 v htask hcache =>
    by_cases hij : i = j
    · subst hij
      have h2 : s.tasks.get ⟨i, hj⟩ = ⟨k2, .start⟩ := htask
      rw [get_set_self s.tasks i _ hj2, h2]
    · rw [get_set_other s.tasks i j _ hij hj2 hj]
  | fastMiss i hi k2 htask hcache =>
    by_cases hij : i = j
    · subst hij
      have h2 : s.tasks.get ⟨i, hj⟩ = ⟨k2, .start⟩ := htask
      rw [get_set_self s.tasks i _ hj2, h2]
    · rw [get_set_other s.tasks i j _ hij hj2 hj]
  | acquire i hi k2 htask hlock =>
    by_cases hij : i = j
    · subst hij
      have h2 : s.tasks.get ⟨i, hj⟩ = ⟨k2, .waiting⟩ := htask
      rw [get_set_self s.tasks i _ hj2, h2]
    · rw [get_set_other s.tasks i j _ hij hj2 hj]
  | checkHit i hi k2 v htask hcache =>
    by_cases hij : i = j
    · subst hij
      have h2 : s.tasks.get ⟨i, hj⟩ = ⟨k2, .critical⟩ := htask
      rw [get_set_self s.tasks i _ hj2, h2]
    · rw [get_set_other s.tasks i j _ hij hj2 hj]
  | beginRender i hi k2 htask hcache =>
    by_cases hij : i = j
    · subst hij
      have h2 : s.tasks.get ⟨i, hj⟩ = ⟨k2, .critical⟩ := htask
      rw [get_set_self s.tasks i _ hj2, h2]
    · rw [get_set_other s.tasks i j _ hij hj2 hj]
  | finishRender i hi k2 htask =>
    by_cases hij : i = j
    · subst hij
      have h2 : s.tasks.get ⟨i, hj⟩ = ⟨k2, .renderWait⟩ := htask
      rw [get_set_self s.tasks i _ hj2, h2]
    · rw [get_set_other s.tasks i j _ hij hj2 hj]

/-- Along any run, the task pool's length and keys are unchanged. -/
theorem reach_tasks_key (rf : String → Nat) (s0 s : Sys) (hreach : Reaches rf s0 s) :
    s.tasks.length = s0.tasks.length ∧
    ∀ j (hj : j < s0.tasks.length) (hj2 : j < s.tasks.length),
      (s.tasks.get ⟨j, hj2⟩).key = (s0.tasks.get ⟨j, hj⟩).key := by
  induction hreach with
  | refl => exact ⟨rfl, fun j hj hj2 => rfl⟩
  | tail hr hstep ih =>
    obtain ⟨hlen, hkeys⟩ := ih
    have hlen2 := step_tasks_length _ _ _ hstep
    refine ⟨hlen2.trans hlen, ?_⟩
    intro j hj hj2
    have hjmid : j < _ := hlen2 ▸ hj2
    exact (step_tasks_key _ _ _ hstep j hjmid hj2).trans (hkeys j hj hjmid)

/-- C1: under cooperative scheduling of `_get_cached_or_render`
(in-memory branch), starting from any state whose tasks are all at the
function entry with key `k` uncached: (a) the external render function
is invoked at most once for `k` in any reachable state — in particular
once any render for `k` completes no further render for `k` ever
starts; (b) when every task for `k` has returned and at least one task
for `k` exists, the render function was invoked exactly once for `k`;
(c) a task waiting on `k`'s lock can always step as soon as its OWN
key's lock is free, whatever the state of other keys' locks — distinct
keys are never serialized behind each other. -/
theorem c1_claim (rf : String → Nat) (k : String) (s0 s : Sys)
    (hinit : InitFor s0 k) (hreach : Reaches rf s0 s) :
    s.renderLog.count k ≤ 1 ∧
    ((∃ t ∈ s0.tasks, t.key = k) →
      (∀ t ∈ s.tasks, t.key = k → ∃ v, t.pc = .done v) →
      s.renderLog.count k = 1) ∧
    (∀ i (hi : i < s.tasks.length), (s.tasks.get ⟨i, hi⟩).pc = .waiting →
      alookup (s.tasks.get ⟨i, hi⟩).key s.locks = some none →
      ∃ s2, Step rf s s2) := by
  have hinv := cinv_reach k rf s0 s hinit hreach
  refine ⟨hinv.count_le, ?_, ?_⟩
  · rintro ⟨t0, ht0mem, ht0key⟩ halldone
    obtain ⟨i0, hi0get⟩ := List.mem_iff_get.mp ht0mem
    obtain ⟨hlen, hkeys⟩ := reach_tasks_key rf s0 s hreach
    have hi0s : (i0 : Nat) < s.tasks.length := by
      rw [hlen]
      exact i0.isLt
    have hkeyi : (s.tasks.get ⟨i0, hi0s⟩).key = k := by
      rw [hkeys i0 i0.isLt hi0s]
      rw [show s0.tasks.get ⟨(i0 : Nat), i0.isLt⟩ = t0 from hi0get]
      exact ht0key
    obtain ⟨v, hdone⟩ := halldone _ (List.get_mem s.tasks i0 hi0s) hkeyi
    have hcached := hinv.done_cached i0 hi0s v hdone
    rw [hkeyi] at hcached
    have h1 : 1 ≤ s.renderLog.count k := hinv.count_iff.mpr (Or.inl hcached)
    have h2 := hinv.count_le
    omega
  · intro i hi hpc hlock
    refine ⟨_, Step.acquire s i hi (s.tasks.get ⟨i, hi⟩).key ?_ hlock⟩
    rw [← hpc]

/-- C1 witness: two tasks race on key `"k"`; along an explicit
interleaving both finish and the render log holds exactly one entry. -/
theorem c1_witness :
    InitFor ⟨[⟨"k", .start⟩, ⟨"k", .start⟩], [], [], []⟩ "k" ∧
    (⟨[⟨"k", .done 7⟩, ⟨"k", .done 7⟩], [("k", 7)], [("k", none)], ["k"]⟩ :
      Sys).renderLog.count "k" = 1 := by
  have hinit : InitFor ⟨[⟨"k", .start⟩, ⟨"k", .start⟩], [], [], []⟩ "k" :=
    ⟨by decide, rfl, rfl, rfl⟩
  refine ⟨hinit, ?_⟩
  have h1 : Step (fun _ => 7) ⟨[⟨"k", .start⟩, ⟨"k", .start⟩], [], [], []⟩
      ⟨[⟨"k", .waiting⟩, ⟨"k", .start⟩], [], [("k", none)], []⟩ :=
    Step.fastMiss _ 0 (by decide) "k" rfl rfl
  have h2 : Step (fun _ => 7) ⟨[⟨"k", .waiting⟩, ⟨"k", .start⟩], [], [("k", none)], []⟩
      ⟨[⟨"k", .waiting⟩, ⟨"k", .waiting⟩], [], [("k", none)], []⟩ :=
    Step.fastMiss _ 1 (by decide) "k" rfl rfl
  have h3 : Step (fun _ => 7) ⟨[⟨"k", .waiting⟩, ⟨"k", .waiting⟩], [], [("k", none)], []⟩
      ⟨[⟨"k", .critical⟩, ⟨"k", .waiting⟩], [], [("k", some 0)], []⟩ :=
    Step.acquire _ 0 (by decide) "k" rfl rfl
  have h4 : Step (fun _ => 7) ⟨[⟨"k", .critical⟩, ⟨"k", .waiting⟩], [], [("k", some 0)], []⟩
      ⟨[⟨"k", .renderWait⟩, ⟨"k", .waiting⟩], [], [("k", some 0)], ["k"]⟩ :=
    Step.beginRender _ 0 (by decide) "k" rfl rfl
  have h5 : Step (fun _ => 7)
      ⟨[⟨"k", .renderWait⟩, ⟨"k", .waiting⟩], [], [("k", some 0)], ["k"]⟩
      ⟨[⟨"k", .done 7⟩, ⟨"k", .waiting⟩], [("k", 7)], [("k", none)], ["k"]⟩ :=
    Step.finishRender _ 0 (by decide) "k" rfl
  have h6 : Step (fun _ => 7)
      ⟨[⟨"k", .done 7⟩, ⟨"k", .waiting⟩], [("k", 7)], [("k", none)], ["k"]⟩
      ⟨[⟨"k", .done 7⟩, ⟨"k", .critical⟩], [("k", 7)], [("k", some 1)], ["k"]⟩ :=
    Step.acquire _ 1 (by decide) "k" rfl rfl
  have h7 : Step (fun _ => 7)
      ⟨[⟨"k", .done 7⟩, ⟨"k", .critical⟩], [("k", 7)], [("k", some 1)], ["k"]⟩
      ⟨[⟨"k", .done 7⟩, ⟨"k", .done 7⟩], [("k", 7)], [("k", none)], ["k"]⟩ :=
    Step.checkHit _ 1 (by decide) "k" 7 rfl rfl
  have hreach : Reaches (fun _ => 7) ⟨[⟨"k", .start⟩, ⟨"k", .start⟩], [], [], []⟩
      ⟨[⟨"k", .done 7⟩, ⟨"k", .done 7⟩], [("k", 7)], [("k", none)], ["k"]⟩ :=
    Relation.ReflTransGen.tail (Relation.ReflTransGen.tail (Relation.ReflTransGen.tail
      (Relation.ReflTransGen.tail (Relation.ReflTransGen.tail (Relation.ReflTransGen.tail
        (Relation.ReflTransGen.single h1) h2) h3) h4) h5) h6) h7
  exact (c1_claim (fun _ => 7) "k" _ _ hinit hreach).2.1
    ⟨⟨"k", .start⟩, by decide, rfl⟩
    (by
      intro t ht hk
      rcases List.mem_cons.mp ht with rfl | ht2
      · exact ⟨7, rfl⟩
      · rcases List.mem_cons.mp ht2 with rfl | ht3
        · exact ⟨7, rfl⟩
        · exact absurd ht3 (by simp))
